import Mathlib

set_option maxRecDepth 10000

/-!
Shallow embedding of `deeppath.py` (repository `bkhant1/deeppath`).

The Python module traverses "value trees": nested structures made of mappings
(`dict`, string keys), sequences (`list`) and scalar leaves.  We embed such a
tree as the inductive `Value` below, with scalars modelled opaquely (they are
neither `Mapping` nor `Sequence`), following the spec's data model in which a
scalar is an opaque leaf.  Path handling is done at character level
(`List Char`); public entry points take `String`, mirroring the Python API.

Exceptions are modelled explicitly: a Lean result of `none` / `.error` marks a
Python exception at the corresponding place.  `dget2` distinguishes the
exception classes it catches (`KeyError`/`TypeError`/`IndexError`, modelled as
`PyErr.caught`) from those that would propagate out of its `try` block
(`ValueError` from `int(...)`, `AttributeError` from `.values()`, modelled as
`PyErr.uncaught`).  For the in-place mutating writer `dset`, the model returns
the updated tree; a run that raises returns `none` (its partially mutated
state is not modelled, no claim depends on it).
-/

/-! Characters and decimal digits. -/

def isWordChar (c : Char) : Bool := c.isAlpha || c.isDigit || c == '_'

def isWordStar (c : Char) : Bool := isWordChar c || c == '*'

def isDigitDash (c : Char) : Bool := c.isDigit || c == '-'

def digitVal (c : Char) : Nat := c.toNat - 48

/-- Value of a decimal digit string, most significant digit first
(the semantics of Python `int(...)` on a digit string). -/
def digitsToNat (ds : List Char) : Nat := ds.foldl (fun a c => a * 10 + digitVal c) 0

def natDigit : Nat → Char
  | 0 => '0' | 1 => '1' | 2 => '2' | 3 => '3' | 4 => '4'
  | 5 => '5' | 6 => '6' | 7 => '7' | 8 => '8' | _ => '9'

/-- Worker for `natDigits`, structurally recursive on a fuel argument so that
it reduces definitionally; `fuel ≥ n` always suffices. -/
def natDigitsGo : Nat → Nat → List Char
  | 0, n => [natDigit n]
  | fuel+1, n =>
      if n < 10 then [natDigit n]
      else natDigitsGo fuel (n / 10) ++ [natDigit (n % 10)]

/-- Decimal rendering of a natural number (semantics of Python `str`/f-string
on a non-negative integer). -/
def natDigits (n : Nat) : List Char := natDigitsGo n n

/-- Decimal rendering of an integer (possible leading minus sign). -/
def intToChars (i : Int) : List Char :=
  if i < 0 then '-' :: natDigits (-i).toNat else natDigits i.toNat

/-! The value tree.  `map` keys are strings (Python `dict` with string keys,
insertion order preserved); `seq` is a Python `list`; the remaining
constructors are opaque scalar leaves. -/

inductive Value where
  | null : Value
  | bool (b : Bool) : Value
  | int (n : Int) : Value
  | str (s : String) : Value
  | map (entries : List (String × Value)) : Value
  | seq (items : List Value) : Value

def isMapB : Value → Bool
  | .map _ => true
  | _ => false

def isSeqB : Value → Bool
  | .seq _ => true
  | _ => false

def isScalar (v : Value) : Bool := !isMapB v && !isSeqB v

/-- First-match lookup in a mapping's entry list (Python `d[k]` / `k in d`;
keys of a Python dict are unique, so first match is dict lookup). -/
def assocGet : List (String × Value) → String → Option Value
  | [], _ => none
  | (k, v) :: rest, key => if k = key then some v else assocGet rest key

/-- Update of a mapping: overwrite the first binding of the key in place, or
append a new binding at the end (Python `d[k] = v`, which keeps insertion
order for existing keys and appends new keys). -/
def assocSet : List (String × Value) → String → Value → List (String × Value)
  | [], key, v => [(key, v)]
  | (k, w) :: rest, key, v =>
      if k = key then (k, v) :: rest else (k, w) :: assocSet rest key v

/-- Python list read `l[i]`: non-negative indices are bounds-checked, negative
indices are resolved against the list's own length (`i` means `length + i`);
`none` is an `IndexError`. -/
def pyIndex (l : List Value) (i : Int) : Option Value :=
  if 0 ≤ i then l.get? i.toNat
  else if 0 ≤ (l.length : Int) + i then l.get? ((l.length : Int) + i).toNat else none

/-- The position a Python index resolves to in a list of length `len`
(negative indices count from the end). -/
def pyResolve (len : Nat) (i : Int) : Nat :=
  if 0 ≤ i then i.toNat else ((len : Int) + i).toNat

/-- An index is valid for a list in Python's sense. -/
def pyOK (l : List Value) (i : Int) : Prop :=
  (0 ≤ i ∧ i.toNat < l.length) ∨ (i < 0 ∧ 0 ≤ (l.length : Int) + i)

/-- Python list write `l[i] = v`, same index resolution as `pyIndex`. -/
def pySet (l : List Value) (i : Int) (v : Value) : Option (List Value) :=
  if 0 ≤ i then
    if i.toNat < l.length then some (l.set i.toNat v) else none
  else if 0 ≤ (l.length : Int) + i then
    some (l.set ((l.length : Int) + i).toNat v)
  else none

/-! The path compiler (`make_command`, `read_path`). -/

/-- The four traversal commands (`ThroughListFlat`, `ThroughListIndexed`,
`ThroughDictFlat`, `ThroughDictKey` namedtuples of the source). -/
inductive PathCommand where
  | throughListFlat : PathCommand
  | throughListIndexed (index : Int) : PathCommand
  | throughDictFlat : PathCommand
  | throughDictKey (key : String) : PathCommand
deriving DecidableEq

/-- Greedy match of `\d+\]` at the start of `rest`: one or more digits
followed by a closing bracket; returns the digits and what follows the
bracket.  (The digit class is disjoint from `]`, so greedy maximal munch is
exactly the regex semantics.) -/
def bracketBody (rest : List Char) : Option (List Char × List Char) :=
  match rest.takeWhile Char.isDigit, rest.dropWhile Char.isDigit with
  | [], _ => none
  | ds, ']' :: r => some (ds, r)
  | _, _ => none

/-- Python `re.match(r"\[(-?\d+)\]", str_token)`: match the pattern as a
prefix of the token (`re.match` anchors at the start only), returning the
captured signed integer. -/
def matchListIdx (s : List Char) : Option Int :=
  match s with
  | '[' :: '-' :: rest => (bracketBody rest).map (fun p => -(digitsToNat p.1 : Int))
  | '[' :: rest => (bracketBody rest).map (fun p => (digitsToNat p.1 : Int))
  | _ => none

/-- `make_command` of the source: classify one token. -/
def make_command (tok : List Char) : PathCommand :=
  if tok = ['*'] then .throughDictFlat
  else if tok = ['[', '*', ']'] then .throughListFlat
  else
    match matchListIdx tok with
    | some i => .throughListIndexed i
    | none => .throughDictKey ⟨tok⟩

/-- Prefix match of the group `\[(?:\*|-?\d+)\]` of the `re.sub` pattern in
`read_path`; returns the matched text and the remaining characters. -/
def bracketSplit (s : List Char) : Option (List Char × List Char) :=
  match s with
  | '[' :: '*' :: ']' :: r => some (['[', '*', ']'], r)
  | '[' :: '-' :: rest => (bracketBody rest).map (fun p => ('[' :: '-' :: (p.1 ++ [']']), p.2))
  | '[' :: rest => (bracketBody rest).map (fun p => ('[' :: (p.1 ++ [']']), p.2))
  | _ => none

/-- The substitution `re.sub(r"([^/])(\[(?:\*|-?\d+)\])", r"\g<1>/\g<2>", path)`
of `read_path`: scanning left to right, insert a `/` between any non-slash
character and an immediately following bracketed `*` or signed integer,
resuming the scan after the replaced match. -/
def subSlashGo : Nat → List Char → List Char
  | _, [] => []
  | 0, l => l
  | fuel+1, c :: rest =>
      if c = '/' then c :: subSlashGo fuel rest
      else
        match bracketSplit rest with
        | some (g, r) => c :: '/' :: (g ++ subSlashGo fuel r)
        | none => c :: subSlashGo fuel rest

def subSlash (s : List Char) : List Char := subSlashGo s.length s

/-- Python `str.split("/")`: split on every slash, keeping empty pieces
(`"".split("/") == [""]`). -/
def splitSlash : List Char → List (List Char)
  | [] => [[]]
  | c :: rest =>
      if c = '/' then [] :: splitSlash rest
      else
        match splitSlash rest with
        | t :: ts => (c :: t) :: ts
        | [] => [[c]]

/-- Python `"/".join(pieces)`. -/
def joinSlash : List (List Char) → List Char
  | [] => []
  | [c] => c
  | c :: rest => c ++ '/' :: joinSlash rest

/-- `read_path` of the source.  `path[0]` raises `IndexError` on an empty
path, modelled as `none`; otherwise a single leading slash is stripped, the
substitution is applied, the result is split on `/` and every token is
classified by `make_command`. -/
def read_path (path : List Char) : Option (List PathCommand) :=
  match path with
  | [] => none
  | c :: rest =>
      let p := if c = '/' then rest else c :: rest
      some ((splitSlash (subSlash p)).map make_command)

/-! The fan-out read engine (`go_through_*`, `process_commands`, `dget`). -/

def go_through_dict_key (key : String) : List Value → List Value
  | [] => []
  | .map es :: rest =>
      match assocGet es key with
      | some v => v :: go_through_dict_key key rest
      | none => go_through_dict_key key rest
  | _ :: rest => go_through_dict_key key rest

/-- `go_through_list_index`.  The source guards with `len(item) > index` only;
for a negative index the guard is vacuous and `item[index]` itself may raise
`IndexError` (when `length + index < 0`), modelled as `none`. -/
def go_through_list_index (index : Int) : List Value → Option (List Value)
  | [] => some []
  | .seq l :: rest =>
      if (l.length : Int) > index then
        match pyIndex l index with
        | some v => (go_through_list_index index rest).map (fun t => v :: t)
        | none => none
      else go_through_list_index index rest
  | _ :: rest => go_through_list_index index rest

def go_through_list_flat : List Value → List Value
  | [] => []
  | .seq l :: rest => l ++ go_through_list_flat rest
  | _ :: rest => go_through_list_flat rest

def go_through_dict_flat : List Value → List Value
  | [] => []
  | .map es :: rest => es.map (fun e => e.2) ++ go_through_dict_flat rest
  | _ :: rest => go_through_dict_flat rest

/-- The inner `process_commands` of `dget`: fold the command list over the
current batch.  `none` is a propagating `IndexError`. -/
def process_commands : List PathCommand → List Value → Option (List Value)
  | [], data => some data
  | .throughDictKey k :: cs, data => process_commands cs (go_through_dict_key k data)
  | .throughListIndexed i :: cs, data =>
      match go_through_list_index i data with
      | some b => process_commands cs b
      | none => none
  | .throughListFlat :: cs, data => process_commands cs (go_through_list_flat data)
  | .throughDictFlat :: cs, data => process_commands cs (go_through_dict_flat data)

/-- `dget` of the source.  The Python function returns either a single value
or a Python list of values; the latter is embedded as `Value.seq`.  A `none`
result is a propagating exception (empty path, or `IndexError` from a
too-negative list index). -/
def dget (data : Value) (path : String) (default : Value) : Option Value :=
  match read_path path.data with
  | none => none
  | some commands =>
      match process_commands commands [data] with
      | none => none
      | some result_list =>
          match result_list with
          | [] => some default
          | r :: rs =>
              if PathCommand.throughListFlat ∈ commands ∨
                 PathCommand.throughDictFlat ∈ commands then
                some (.seq (r :: rs))
              else some r

/-! The legacy reader (`_get_repetition_index`, `_flatdget`, `dget2`). -/

/-- Exception classes relevant to `dget2`: `caught` stands for
`KeyError`/`TypeError`/`IndexError` (handled by its `except` clause),
`uncaught` for `ValueError` (from `int(...)`) and `AttributeError`
(from `.values()` on a non-mapping), which escape the `try` block. -/
inductive PyErr where
  | caught : PyErr
  | uncaught : PyErr
deriving DecidableEq

/-- A Python subscript: a string key or an integer index. -/
inductive PyKey where
  | str (s : List Char) : PyKey
  | int (i : Int) : PyKey

/-- `path.startswith("/")` strip used by `dget2` and `dset`. -/
def stripSlash (p : List Char) : List Char :=
  match p with
  | '/' :: r => r
  | r => r

/-- Match of `([\w\*]+)\[([\d-]+)\]` anchored at the start of `s`, returning
the two captured groups.  Both character classes are disjoint from the
bracket characters that follow them, so maximal munch needs no backtracking. -/
def repMatchAt (s : List Char) : Option (List Char × List Char) :=
  match s.takeWhile isWordStar, s.dropWhile isWordStar with
  | [], _ => none
  | g1, '[' :: r1 =>
      match r1.takeWhile isDigitDash, r1.dropWhile isDigitDash with
      | [], _ => none
      | g2, ']' :: _ => some (g1, g2)
      | _, _ => none
  | _, _ => none

/-- `_REPETITION_REGEX.search`: leftmost match of the repetition pattern
anywhere in the string. -/
def repSearch : List Char → Option (List Char × List Char)
  | [] => none
  | c :: rest =>
      match repMatchAt (c :: rest) with
      | some m => some m
      | none => repSearch rest

/-- Python `int(...)` on a string drawn from the class `[\d-]+`: a digit
string with at most one leading minus sign parses, anything else (such as
`"1-2"` or `"--"`) raises `ValueError`, modelled as `none`. -/
def parseRepInt (s : List Char) : Option Int :=
  match s with
  | '-' :: ds =>
      if ds = [] then none
      else if ds.all Char.isDigit then some (-(digitsToNat ds : Int)) else none
  | ds =>
      if ds = [] then none
      else if ds.all Char.isDigit then some ((digitsToNat ds : Int)) else none

/-- `_get_repetition_index` of the source (leading underscore dropped):
search the segment for `key[number]` and return the key and parsed index.
A group like `[1-2]` makes `int(...)` raise `ValueError`, which `dget2`'s
`except` clause does not catch. -/
def get_repetition_index (key : List Char) : Except PyErr (Option (List Char × Int)) :=
  match repSearch key with
  | none => .ok none
  | some (g1, g2) =>
      match parseRepInt g2 with
      | some i => .ok (some (g1, i))
      | none => .error .uncaught

/-! `_flatdget` of the source: subscript `data[key]`, except that a string
key applied to a sequence broadcasts element-wise and collects the results
in a new list.  All exceptions raised here (`KeyError`, `IndexError`,
`TypeError`) are of the caught class. -/
mutual
def flatdget : Value → PyKey → Except PyErr Value
  | .seq l, .str s =>
      match flatdgetList l s with
      | .ok ws => .ok (.seq ws)
      | .error e => .error e
  | .seq l, .int i =>
      match pyIndex l i with
      | some v => .ok v
      | none => .error .caught
  | .map es, .str s =>
      match assocGet es ⟨s⟩ with
      | some v => .ok v
      | none => .error .caught
  | .map _, .int _ => .error .caught
  | _, _ => .error .caught

def flatdgetList : List Value → List Char → Except PyErr (List Value)
  | [], _ => .ok []
  | v :: vs, s =>
      match flatdget v (.str s) with
      | .ok w =>
          match flatdgetList vs s with
          | .ok ws => .ok (w :: ws)
          | .error e => .error e
      | .error e => .error e
end

/-- The comprehension `[_flatdget(value, index) for value in data.values()]`
over a mapping's values. -/
def flatdgetValues : List Value → Int → Except PyErr (List Value)
  | [], _ => .ok []
  | v :: vs, i =>
      match flatdget v (.int i) with
      | .ok w =>
          match flatdgetValues vs i with
          | .ok ws => .ok (w :: ws)
          | .error e => .error e
      | .error e => .error e

/-- One iteration of `dget2`'s segment loop. -/
def dget2_step (key : List Char) (data : Value) : Except PyErr Value :=
  match get_repetition_index key with
  | .error e => .error e
  | .ok (some (k, index)) =>
      if k = ['*'] then
        match data with
        | .map es =>
            match flatdgetValues (es.map (fun e => e.2)) index with
            | .ok ws => .ok (.seq ws)
            | .error e => .error e
        | _ => .error .uncaught
      else
        match flatdget data (.str k) with
        | .ok d1 => flatdget d1 (.int index)
        | .error e => .error e
  | .ok none =>
      if key = ['*'] then
        match data with
        | .seq _ => .ok data
        | .map es => .ok (.seq (es.map (fun e => e.2)))
        | _ => .error .uncaught
      else flatdget data (.str key)

def dget2_loop : List (List Char) → Value → Except PyErr Value
  | [], data => .ok data
  | seg :: rest, data =>
      match dget2_step seg data with
      | .ok d2 => dget2_loop rest d2
      | .error e => .error e

/-- `dget2` of the source: strip one leading slash, split on `/`, fold the
step over the segments inside a `try` that turns a caught-class exception
into `default`; an uncaught-class exception propagates (`none`). -/
def dget2 (data : Value) (path : String) (default : Value) : Option Value :=
  match dget2_loop (splitSlash (stripSlash path.data)) data with
  | .ok v => some v
  | .error .caught => some default
  | .error .uncaught => none

/-! The writer (`dset`).  The Python function mutates `data` in place; the
model returns the updated tree, and a run that raises returns `none` (the
partially mutated state of a raising run is not modelled).  A final-segment
write `data[key][index] = value` where `data[key]` is a mapping would insert
an integer key into a Python dict; such states fall outside the string-keyed
value model of the spec and are treated as undefined (`none`). -/

/-- Processing of the final path segment of `dset`. -/
def dset_last (seg : List Char) (data : Value) (value : Value) : Option Value :=
  match get_repetition_index seg with
  | .error _ => none
  | .ok none =>
      match data with
      | .map es => some (.map (assocSet es ⟨seg⟩ value))
      | _ => none
  | .ok (some (k, i)) =>
      match data with
      | .map es =>
          match assocGet es ⟨k⟩ with
          | none => some (.map (assocSet es ⟨k⟩ (.seq [value])))
          | some (.seq l) =>
              if (l.length : Int) = i then
                some (.map (assocSet es ⟨k⟩ (.seq (l ++ [value]))))
              else
                match pySet l i value with
                | some l2 => some (.map (assocSet es ⟨k⟩ (.seq l2)))
                | none => none
          | some _ => none
      | _ => none

/-- `dset`'s loop over the non-final segments followed by `dset_last`; the
list argument is the full segment list.  For a repetition segment the source
creates `[{}]` for a missing key, appends `{}` when the index equals the
current length, then descends into the element at the index. -/
def dset_go : List (List Char) → Value → Value → Option Value
  | [], _, _ => none
  | seg :: rest, data, value =>
      match rest with
      | [] => dset_last seg data value
      | s2 :: rest2 =>
          match get_repetition_index seg with
          | .error _ => none
          | .ok none =>
              match data with
              | .map es =>
                  match dset_go (s2 :: rest2) ((assocGet es ⟨seg⟩).getD (.map [])) value with
                  | some c2 => some (.map (assocSet es ⟨seg⟩ c2))
                  | none => none
              | _ => none
          | .ok (some (k, i)) =>
              match data with
              | .map es =>
                  match
                    match assocGet es ⟨k⟩ with
                    | none => some [Value.map []]
                    | some (.seq l) => some (if (l.length : Int) = i then l ++ [Value.map []] else l)
                    | some _ => none
                  with
                  | some l1 =>
                      match pyIndex l1 i with
                      | some e =>
                          match dset_go (s2 :: rest2) e value with
                          | some e2 =>
                              match pySet l1 i e2 with
                              | some l2 => some (.map (assocSet es ⟨k⟩ (.seq l2)))
                              | none => none
                          | none => none
                      | none => none
                  | none => none
              | _ => none

/-- `dset` of the source, as a function from the old tree to the new tree. -/
def dset (data : Value) (path : String) (value : Value) : Option Value :=
  dset_go (splitSlash (stripSlash path.data)) data value

/-! The leaf walker (`_dwalk_with_path`, `dwalk`). -/

/-- Split a list into its leading part and last element. -/
def splitLast : List (List Char) → Option (List (List Char) × List Char)
  | [] => none
  | [a] => some ([], a)
  | a :: b :: rest =>
      match splitLast (b :: rest) with
      | some (pre, l) => some (a :: pre, l)
      | none => none

/-! `_dwalk_with_path` of the source.  For a mapping, recurse into each value
with the key appended to the accumulated path; for a (mutable) sequence,
recurse into each element with the last accumulated component annotated with
`[index]` — `subpath[-1]` raises `IndexError` (`none`) when the accumulated
path is empty, which the source reaches as soon as the first element of such
a sequence is processed; any other value is a leaf and yields one pair.  A
generator that raises has yielded no pairs in the only raising situation (a
sequence with a non-empty item list and an empty accumulated path raises on
its first iteration), so returning `none` without pairs is faithful. -/
mutual
def dwalkGo : Value → List (List Char) → Option (List (String × Value))
  | .map es, acc => walkEntries es acc
  | .seq items, acc =>
      match items with
      | [] => some []
      | _ =>
          match splitLast acc with
          | none => none
          | some (pre, lastC) => walkItems items pre lastC 0
  | v, acc => some [(⟨joinSlash acc⟩, v)]

def walkEntries : List (String × Value) → List (List Char) → Option (List (String × Value))
  | [], _ => some []
  | (k, v) :: rest, acc =>
      match dwalkGo v (acc ++ [k.data]) with
      | none => none
      | some l1 =>
          match walkEntries rest acc with
          | none => none
          | some l2 => some (l1 ++ l2)

def walkItems : List Value → List (List Char) → List Char → Nat → Option (List (String × Value))
  | [], _, _, _ => some []
  | v :: rest, pre, lastC, i =>
      match dwalkGo v (pre ++ [lastC ++ '[' :: natDigits i ++ [']']]) with
      | none => none
      | some l1 =>
          match walkItems rest pre lastC (i + 1) with
          | none => none
          | some l2 => some (l1 ++ l2)
end

/-- `dwalk` of the source. -/
def dwalk (data : Value) : Option (List (String × Value)) :=
  dwalkGo data []

/-! Model-side vocabulary used by the theorem statements: the restricted
segment grammar `key` / `key[i]` of the spec (§6), and well-formedness of
value trees (word-character keys, distinct keys per mapping, no sequence
directly inside a sequence). -/

/-- A path segment of the spec's grammar: a bare key, or a key with one
bracketed index suffix. -/
inductive Comp where
  | plain (k : List Char) : Comp
  | idx (k : List Char) (i : Int) : Comp

def Comp.key : Comp → List Char
  | .plain k => k
  | .idx k _ => k

/-- The segment as written in a path string. -/
def Comp.render : Comp → List Char
  | .plain k => k
  | .idx k i => k ++ '[' :: intToChars i ++ [']']

/-- The commands the segment compiles to. -/
def Comp.cmds : Comp → List PathCommand
  | .plain k => [.throughDictKey ⟨k⟩]
  | .idx k i => [.throughDictKey ⟨k⟩, .throughListIndexed i]

/-- The tokens the segment contributes after `read_path`'s slash-insertion
rewrite and split. -/
def Comp.toks : Comp → List (List Char)
  | .plain k => [k]
  | .idx k i => [k, '[' :: intToChars i ++ [']']]

/-- A non-empty key made of word characters (letters, digits, underscore). -/
def wordKeyB (k : List Char) : Bool := !k.isEmpty && k.all isWordChar

def Comp.wfB (c : Comp) : Bool := wordKeyB c.key

/-- Pairwise distinct keys in a mapping's entry list. -/
def keysDistinct : List (String × Value) → Bool
  | [] => true
  | (k, _) :: rest => rest.all (fun e => e.1 != k) && keysDistinct rest

/-! Well-formed tree: every mapping has distinct word-character keys, and no
sequence element is itself a sequence. -/
mutual
def wfValue : Value → Bool
  | .map es => keysDistinct es && wfEntries es
  | .seq items => wfItems items
  | _ => true

def wfEntries : List (String × Value) → Bool
  | [] => true
  | (k, v) :: rest => wordKeyB k.data && wfValue v && wfEntries rest

def wfItems : List Value → Bool
  | [] => true
  | v :: rest => !(isSeqB v) && wfValue v && wfItems rest
end

/-- Side condition of the amended idempotence claim: the final segment, if a
repetition `key[i]`, does not have index `1`. -/
def lastSegOKB (segs : List (List Char)) : Bool :=
  match segs.getLast? with
  | none => true
  | some s =>
      match get_repetition_index s with
      | .ok (some (_, i)) => i != 1
      | _ => true

/-! ### Helper lemmas: characters, digits, takeWhile/dropWhile -/

theorem takeWhile_all_append {p : Char → Bool} {ds : List Char}
    (h : ∀ c ∈ ds, p c = true) (r : List Char) :
    (ds ++ r).takeWhile p = ds ++ r.takeWhile p := by
  induction ds with
  | nil => simp
  | cons d tl ih =>
      have hd := h d (List.mem_cons_self d tl)
      simp [List.takeWhile_cons, hd, ih (fun c hc => h c (List.mem_cons_of_mem _ hc))]

theorem dropWhile_all_append {p : Char → Bool} {ds : List Char}
    (h : ∀ c ∈ ds, p c = true) (r : List Char) :
    (ds ++ r).dropWhile p = r.dropWhile p := by
  induction ds with
  | nil => simp
  | cons d tl ih =>
      have hd := h d (List.mem_cons_self d tl)
      simp [List.dropWhile_cons, hd, ih (fun c hc => h c (List.mem_cons_of_mem _ hc))]

theorem natDigit_isDigit (d : Nat) : (natDigit d).isDigit = true := by
  unfold natDigit
  split <;> decide

theorem digitVal_natDigit {d : Nat} (h : d < 10) : digitVal (natDigit d) = d := by
  interval_cases d <;> decide

theorem natDigitsGo_invariant : ∀ (m f1 f2 : Nat), m ≤ f1 → m ≤ f2 →
    natDigitsGo f1 m = natDigitsGo f2 m := by
  intro m
  induction m using Nat.strong_induction_on with
  | _ m ih =>
    intro f1 f2 h1 h2
    cases f1 with
    | zero =>
      cases f2 with
      | zero => rfl
      | succ f2 =>
        have hm : m = 0 := by omega
        subst hm
        show _ = (if (0 : Nat) < 10 then [natDigit 0] else _)
        rw [if_pos (by omega)]
        rfl
    | succ f1 =>
      cases f2 with
      | zero =>
        have hm : m = 0 := by omega
        subst hm
        show (if (0 : Nat) < 10 then [natDigit 0] else _) = _
        rw [if_pos (by omega)]
        rfl
      | succ f2 =>
        show (if m < 10 then [natDigit m] else natDigitsGo f1 (m / 10) ++ [natDigit (m % 10)])
          = (if m < 10 then [natDigit m] else natDigitsGo f2 (m / 10) ++ [natDigit (m % 10)])
        by_cases h : m < 10
        · rw [if_pos h, if_pos h]
        · rw [if_neg h, if_neg h]
          have hlt : m / 10 < m := Nat.div_lt_self (by omega) (by omega)
          rw [ih (m / 10) hlt f1 f2 (by omega) (by omega)]

theorem natDigits_eq (n : Nat) :
    natDigits n = if n < 10 then [natDigit n]
      else natDigits (n / 10) ++ [natDigit (n % 10)] := by
  show natDigitsGo n n = _
  cases n with
  | zero =>
    rw [if_pos (by omega)]
    rfl
  | succ m =>
    show (if m + 1 < 10 then [natDigit (m + 1)]
        else natDigitsGo m ((m + 1) / 10) ++ [natDigit ((m + 1) % 10)]) = _
    by_cases h : m + 1 < 10
    · rw [if_pos h, if_pos h]
    · rw [if_neg h, if_neg h]
      have hlt : (m + 1) / 10 < m + 1 := Nat.div_lt_self (by omega) (by omega)
      rw [natDigitsGo_invariant ((m + 1) / 10) m ((m + 1) / 10) (by omega) (le_refl _)]
      rfl

theorem natDigits_ne_nil (n : Nat) : natDigits n ≠ [] := by
  rw [natDigits_eq]
  split <;> simp

theorem natDigits_all_digit (n : Nat) : ∀ c ∈ natDigits n, c.isDigit = true := by
  induction n using Nat.strong_induction_on with
  | _ n ih =>
    rw [natDigits_eq]
    split
    · intro c hc
      rw [List.mem_singleton] at hc
      subst hc
      exact natDigit_isDigit n
    · intro c hc
      rw [List.mem_append] at hc
      rcases hc with hc | hc
      · exact ih (n / 10) (Nat.div_lt_self (by omega) (by omega)) c hc
      · rw [List.mem_singleton] at hc
        subst hc
        exact natDigit_isDigit _

theorem digitsToNat_append_one (ds : List Char) (c : Char) :
    digitsToNat (ds ++ [c]) = 10 * digitsToNat ds + digitVal c := by
  unfold digitsToNat
  rw [List.foldl_append]
  simp [Nat.mul_comm]

theorem digitsToNat_natDigits (n : Nat) : digitsToNat (natDigits n) = n := by
  induction n using Nat.strong_induction_on with
  | _ n ih =>
    rw [natDigits_eq]
    split
    · rename_i h
      simp [digitsToNat, digitVal_natDigit h]
    · rename_i h
      rw [digitsToNat_append_one, ih (n / 10) (Nat.div_lt_self (by omega) (by omega)),
        digitVal_natDigit (Nat.mod_lt _ (by omega))]
      omega

theorem isDigit_ne {c : Char} (h : c.isDigit = true) :
    c ≠ '/' ∧ c ≠ '[' ∧ c ≠ ']' ∧ c ≠ '*' ∧ c ≠ '-' := by
  refine ⟨?_, ?_, ?_, ?_, ?_⟩ <;> (intro he; subst he; exact absurd h (by decide))

theorem isWordChar_ne {c : Char} (h : isWordChar c = true) :
    c ≠ '/' ∧ c ≠ '[' ∧ c ≠ ']' ∧ c ≠ '*' := by
  refine ⟨?_, ?_, ?_, ?_⟩ <;> (intro he; subst he; exact absurd h (by decide))

theorem isDigit_isWordChar {c : Char} (h : c.isDigit = true) : isWordChar c = true := by
  simp [isWordChar, h]

theorem intToChars_nonneg {i : Int} (h : 0 ≤ i) : intToChars i = natDigits i.toNat := by
  unfold intToChars
  rw [if_neg (by omega)]

theorem intToChars_neg {i : Int} (h : i < 0) : intToChars i = '-' :: natDigits (-i).toNat := by
  unfold intToChars
  rw [if_pos h]

/-! ### Lemmas about the regex fragments `bracketBody`, `bracketSplit`,
`matchListIdx` -/

theorem bracketBody_digits {ds : List Char} (hne : ds ≠ [])
    (hds : ∀ c ∈ ds, c.isDigit = true) (rest : List Char) :
    bracketBody (ds ++ ']' :: rest) = some (ds, rest) := by
  unfold bracketBody
  rw [takeWhile_all_append hds, dropWhile_all_append hds]
  have h1 : (']' :: rest).takeWhile Char.isDigit = [] := by
    rw [List.takeWhile_cons]
    simp
  have h2 : (']' :: rest).dropWhile Char.isDigit = ']' :: rest := by
    rw [List.dropWhile_cons]
    simp
  rw [h1, h2]
  cases ds with
  | nil => exact absurd rfl hne
  | cons d tl => simp

theorem bracketBody_eq_some {rest ds r : List Char}
    (h : bracketBody rest = some (ds, r)) :
    ds ≠ [] ∧ (∀ c ∈ ds, c.isDigit = true) ∧ rest = ds ++ ']' :: r := by
  unfold bracketBody at h
  split at h
  · cases h
  · rename_i hD hT
    cases h
    refine ⟨by assumption, ?_, ?_⟩
    · intro c hc
      exact List.mem_takeWhile_imp hc
    · rw [← hD]
      exact (List.takeWhile_append_dropWhile Char.isDigit rest).symm
  · cases h

theorem bracketSplit_nil : bracketSplit [] = none := rfl

theorem bracketSplit_dash (l : List Char) :
    bracketSplit ('[' :: '-' :: l) =
      (bracketBody l).map (fun p => ('[' :: '-' :: (p.1 ++ [']']), p.2)) := rfl

theorem bracketSplit_cons_ne_lbrack {c : Char} (h : c ≠ '[') (l : List Char) :
    bracketSplit (c :: l) = none := by
  unfold bracketSplit
  split <;> first | rfl | simp_all

theorem bracketSplit_digitBr {ds : List Char} (hne : ds ≠ [])
    (hds : ∀ c ∈ ds, c.isDigit = true) (rest : List Char) :
    bracketSplit ('[' :: ds ++ ']' :: rest) = some ('[' :: ds ++ [']'], rest) := by
  cases ds with
  | nil => exact absurd rfl hne
  | cons d tl =>
    have hd : d.isDigit = true := hds d (List.mem_cons_self _ _)
    simp only [List.cons_append]
    unfold bracketSplit
    split
    · rename_i heq
      exact absurd heq (by
        intro he
        have : d = '*' := by injection (by injection he : d :: (tl ++ ']' :: rest) = '*' :: ']' :: _)
        exact (isDigit_ne hd).2.2.2.1 this)
    · rename_i heq
      exact absurd heq (by
        intro he
        have : d = '-' := by injection (by injection he : d :: (tl ++ ']' :: rest) = '-' :: _)
        exact (isDigit_ne hd).2.2.2.2 this)
    · rename_i heq
      have h2 : d :: (tl ++ ']' :: rest) = (d :: tl) ++ ']' :: rest := by simp
      have h3 := by injection heq
      rw [← h3, h2, bracketBody_digits hne hds rest]
      simp
    · rename_i hno
      exact absurd rfl (hno (d :: (tl ++ ']' :: rest)))

theorem matchListIdx_nil : matchListIdx [] = none := rfl

theorem matchListIdx_dash (l : List Char) :
    matchListIdx ('[' :: '-' :: l) =
      (bracketBody l).map (fun p => -(digitsToNat p.1 : Int)) := rfl

theorem matchListIdx_cons_ne_lbrack {c : Char} (h : c ≠ '[') (l : List Char) :
    matchListIdx (c :: l) = none := by
  unfold matchListIdx
  split <;> first | rfl | simp_all

theorem matchListIdx_digitBr {ds : List Char} (hne : ds ≠ [])
    (hds : ∀ c ∈ ds, c.isDigit = true) (rest : List Char) :
    matchListIdx ('[' :: ds ++ ']' :: rest) = some ((digitsToNat ds : Int)) := by
  cases ds with
  | nil => exact absurd rfl hne
  | cons d tl =>
    have hd : d.isDigit = true := hds d (List.mem_cons_self _ _)
    simp only [List.cons_append]
    unfold matchListIdx
    split
    · rename_i heq
      exact absurd heq (by
        intro he
        have : d = '-' := by injection (by injection he : d :: (tl ++ ']' :: rest) = '-' :: _)
        exact (isDigit_ne hd).2.2.2.2 this)
    · rename_i heq
      have h2 : d :: (tl ++ ']' :: rest) = (d :: tl) ++ ']' :: rest := by simp
      have h3 := by injection heq
      rw [← h3, h2, bracketBody_digits hne hds rest]
      simp
    · rename_i hno
      exact absurd rfl (hno (d :: (tl ++ ']' :: rest)))

theorem matchListIdx_intBr (i : Int) (rest : List Char) :
    matchListIdx ('[' :: intToChars i ++ ']' :: rest) = some i := by
  by_cases hi : i < 0
  · rw [intToChars_neg hi]
    simp only [List.cons_append]
    rw [matchListIdx_dash,
      bracketBody_digits (natDigits_ne_nil _) (natDigits_all_digit _) rest]
    simp [digitsToNat_natDigits]
    omega
  · rw [intToChars_nonneg (by omega),
      matchListIdx_digitBr (natDigits_ne_nil _) (natDigits_all_digit _) rest,
      digitsToNat_natDigits]
    congr 1
    omega

theorem bracketSplit_intBr (i : Int) (rest : List Char) :
    bracketSplit ('[' :: intToChars i ++ ']' :: rest) =
      some ('[' :: intToChars i ++ [']'], rest) := by
  by_cases hi : i < 0
  · rw [intToChars_neg hi]
    simp only [List.cons_append]
    rw [bracketSplit_dash,
      bracketBody_digits (natDigits_ne_nil _) (natDigits_all_digit _) rest]
    simp
  · rw [intToChars_nonneg (by omega)]
    exact bracketSplit_digitBr (natDigits_ne_nil _) (natDigits_all_digit _) rest

/-! ### Word keys and `make_command` classification -/

theorem wordKeyB_ne_nil {k : List Char} (h : wordKeyB k = true) : k ≠ [] := by
  intro he
  subst he
  simp [wordKeyB] at h

theorem wordKeyB_all {k : List Char} (h : wordKeyB k = true) :
    ∀ c ∈ k, isWordChar c = true := by
  unfold wordKeyB at h
  rw [Bool.and_eq_true, List.all_eq_true] at h
  exact h.2

theorem intToChars_ne_nil (i : Int) : intToChars i ≠ [] := by
  unfold intToChars
  split
  · simp
  · exact natDigits_ne_nil _

theorem intToChars_head {i : Int} {d : Char} {tl : List Char}
    (h : intToChars i = d :: tl) : d = '-' ∨ d.isDigit = true := by
  unfold intToChars at h
  split at h
  · left
    injection h with h1 _
    exact h1.symm
  · right
    have : d ∈ natDigits i.toNat := by rw [h]; exact List.mem_cons_self _ _
    exact natDigits_all_digit _ _ this

theorem slash_not_mem_intToChars (i : Int) : '/' ∉ intToChars i := by
  unfold intToChars
  split
  · intro h
    rw [List.mem_cons] at h
    rcases h with h | h
    · exact absurd h (by decide)
    · exact absurd (natDigits_all_digit _ _ h) (by decide)
  · intro h
    exact absurd (natDigits_all_digit _ _ h) (by decide)

theorem make_command_word {k : List Char} (h : wordKeyB k = true) :
    make_command k = .throughDictKey ⟨k⟩ := by
  have hne := wordKeyB_ne_nil h
  have hall := wordKeyB_all h
  have h1 : k ≠ ['*'] := by
    intro he
    exact absurd (hall '*' (by rw [he]; simp)) (by decide)
  have h2 : k ≠ ['[', '*', ']'] := by
    intro he
    exact absurd (hall '[' (by rw [he]; simp)) (by decide)
  have h3 : matchListIdx k = none := by
    cases k with
    | nil => exact matchListIdx_nil
    | cons c tl => exact matchListIdx_cons_ne_lbrack (isWordChar_ne (hall c (by simp))).2.1 tl
  unfold make_command
  rw [if_neg h1, if_neg h2, h3]

theorem make_command_intBr (i : Int) (rest : List Char) :
    make_command ('[' :: intToChars i ++ ']' :: rest) = .throughListIndexed i := by
  have h1 : '[' :: intToChars i ++ ']' :: rest ≠ ['*'] := by
    intro he
    injection he with hh _
    exact absurd hh (by decide)
  have h2 : '[' :: intToChars i ++ ']' :: rest ≠ ['[', '*', ']'] := by
    intro he
    injection he with _ he2
    cases hic : intToChars i with
    | nil => exact intToChars_ne_nil i hic
    | cons d tl =>
        rw [hic] at he2
        injection he2 with hd _
        rcases intToChars_head hic with h | h
        · rw [hd] at h
          exact absurd h (by decide)
        · rw [hd] at h
          exact absurd h (by decide)
  unfold make_command
  rw [if_neg h1, if_neg h2, matchListIdx_intBr]

/-! ### `subSlash`, `splitSlash`, `joinSlash` structure lemmas -/

theorem bracketSplit_shrink {s g r : List Char} (h : bracketSplit s = some (g, r)) :
    r.length < s.length := by
  unfold bracketSplit at h
  split at h
  · cases h
    simp
    omega
  · rename_i rest2
    rw [Option.map_eq_some'] at h
    obtain ⟨p, hp, hpr⟩ := h
    unfold bracketBody at hp
    split at hp
    · cases hp
    · cases hp
      rename_i hT hD
      cases hpr
      have hsub := List.Sublist.length_le (List.dropWhile_sublist (l := rest2) Char.isDigit)
      rw [hT] at hsub
      simp at hsub ⊢
      omega
    · cases hp
  · rename_i rest2 h1 h2
    rw [Option.map_eq_some'] at h
    obtain ⟨p, hp, hpr⟩ := h
    unfold bracketBody at hp
    split at hp
    · cases hp
    · cases hp
      rename_i hT hD
      cases hpr
      have hsub := List.Sublist.length_le (List.dropWhile_sublist (l := rest2) Char.isDigit)
      rw [hT] at hsub
      simp at hsub ⊢
      omega
    · cases hp
  · cases h

theorem subSlashGo_cons (f : Nat) (c : Char) (rest : List Char) :
    subSlashGo (f + 1) (c :: rest) =
      if c = '/' then c :: subSlashGo f rest
      else
        match bracketSplit rest with
        | some (g, r) => c :: '/' :: (g ++ subSlashGo f r)
        | none => c :: subSlashGo f rest := rfl

theorem subSlashGo_invariant : ∀ (n : Nat) (s : List Char), s.length ≤ n →
    ∀ f1 f2, s.length ≤ f1 → s.length ≤ f2 → subSlashGo f1 s = subSlashGo f2 s := by
  intro n
  induction n with
  | zero =>
    intro s hs f1 f2 _ _
    have : s = [] := by cases s <;> simp_all
    subst this
    cases f1 <;> cases f2 <;> rfl
  | succ n ih =>
    intro s hs f1 f2 h1 h2
    cases s with
    | nil => cases f1 <;> cases f2 <;> rfl
    | cons c rest =>
      cases f1 with
      | zero => simp at h1
      | succ f1 =>
        cases f2 with
        | zero => simp at h2
        | succ f2 =>
          rw [subSlashGo_cons, subSlashGo_cons]
          simp only [List.length_cons] at hs h1 h2
          by_cases hc : c = '/'
          · rw [if_pos hc, if_pos hc,
              ih rest (by omega) f1 f2 (by omega) (by omega)]
          · rw [if_neg hc, if_neg hc]
            cases hb : bracketSplit rest with
            | some p =>
              obtain ⟨g, r⟩ := p
              have hr : r.length < rest.length := bracketSplit_shrink hb
              show c :: '/' :: (g ++ subSlashGo f1 r) = c :: '/' :: (g ++ subSlashGo f2 r)
              rw [ih r (by omega) f1 f2 (by omega) (by omega)]
            | none =>
              show c :: subSlashGo f1 rest = c :: subSlashGo f2 rest
              rw [ih rest (by omega) f1 f2 (by omega) (by omega)]

theorem subSlash_nil : subSlash [] = [] := rfl

theorem subSlash_slash (rest : List Char) : subSlash ('/' :: rest) = '/' :: subSlash rest := by
  show subSlashGo (rest.length + 1) ('/' :: rest) = '/' :: subSlashGo rest.length rest
  rw [subSlashGo_cons, if_pos rfl]

theorem subSlash_cons_some {c : Char} (hc : c ≠ '/') {rest g r : List Char}
    (h : bracketSplit rest = some (g, r)) :
    subSlash (c :: rest) = c :: '/' :: (g ++ subSlash r) := by
  show subSlashGo (rest.length + 1) (c :: rest) = c :: '/' :: (g ++ subSlashGo r.length r)
  rw [subSlashGo_cons, if_neg hc, h]
  have hr : r.length < rest.length := bracketSplit_shrink h
  show c :: '/' :: (g ++ subSlashGo rest.length r) = c :: '/' :: (g ++ subSlashGo r.length r)
  rw [subSlashGo_invariant r.length r (le_refl _) rest.length r.length (by omega) (le_refl _)]

theorem subSlash_cons_none {c : Char} (hc : c ≠ '/') {rest : List Char}
    (h : bracketSplit rest = none) :
    subSlash (c :: rest) = c :: subSlash rest := by
  show subSlashGo (rest.length + 1) (c :: rest) = c :: subSlashGo rest.length rest
  rw [subSlashGo_cons, if_neg hc, h]

theorem subSlash_word_append {k : List Char} (hne : k ≠ [])
    (hall : ∀ c ∈ k, isWordChar c = true) (rest : List Char) :
    subSlash (k ++ rest) =
      k ++ (match bracketSplit rest with
            | some (g, r) => '/' :: (g ++ subSlash r)
            | none => subSlash rest) := by
  induction k with
  | nil => exact absurd rfl hne
  | cons c tl ih =>
    have hc : isWordChar c = true := hall c (by simp)
    have hcs := (isWordChar_ne hc).1
    cases tl with
    | nil =>
      simp only [List.cons_append, List.nil_append]
      cases hb : bracketSplit rest with
      | some p =>
        obtain ⟨g, r⟩ := p
        rw [subSlash_cons_some hcs hb]
      | none =>
        rw [subSlash_cons_none hcs hb]
    | cons c2 tl2 =>
      have hlb : c2 ≠ '[' := (isWordChar_ne (hall c2 (by simp))).2.1
      have h2 : bracketSplit (c2 :: (tl2 ++ rest)) = none := bracketSplit_cons_ne_lbrack hlb _
      simp only [List.cons_append]
      rw [subSlash_cons_none hcs (by simpa using h2)]
      have := ih (by simp) (fun x hx => hall x (by simp [hx]))
      simp only [List.cons_append] at this
      rw [this]

theorem subSlash_word_slash {k : List Char} (hne : k ≠ [])
    (hall : ∀ c ∈ k, isWordChar c = true) (l : List Char) :
    subSlash (k ++ '/' :: l) = k ++ '/' :: subSlash l := by
  rw [subSlash_word_append hne hall, bracketSplit_cons_ne_lbrack (by decide) l,
    subSlash_slash]

theorem subSlash_word_only {k : List Char} (hne : k ≠ [])
    (hall : ∀ c ∈ k, isWordChar c = true) :
    subSlash k = k := by
  have := subSlash_word_append hne hall []
  rw [List.append_nil] at this
  rw [this, bracketSplit_nil, subSlash_nil, List.append_nil]

theorem subSlash_word_br {k : List Char} (hne : k ≠ [])
    (hall : ∀ c ∈ k, isWordChar c = true) (i : Int) (l : List Char) :
    subSlash (k ++ ('[' :: intToChars i ++ ']' :: l)) =
      k ++ '/' :: (('[' :: intToChars i ++ [']']) ++ subSlash l) := by
  rw [subSlash_word_append hne hall, bracketSplit_intBr i l]

theorem splitSlash_nil : splitSlash [] = [[]] := rfl

theorem splitSlash_cons_eq (c : Char) (rest : List Char) :
    splitSlash (c :: rest) =
      if c = '/' then [] :: splitSlash rest
      else
        match splitSlash rest with
        | t :: ts => (c :: t) :: ts
        | [] => [[c]] := rfl

theorem splitSlash_slash (rest : List Char) :
    splitSlash ('/' :: rest) = [] :: splitSlash rest := by
  rw [splitSlash_cons_eq, if_pos rfl]

theorem splitSlash_cons {c : Char} (hc : c ≠ '/') (rest : List Char) :
    splitSlash (c :: rest) =
      match splitSlash rest with
      | t :: ts => (c :: t) :: ts
      | [] => [[c]] := by
  rw [splitSlash_cons_eq, if_neg hc]

theorem splitSlash_no_slash {t : List Char} (h : '/' ∉ t) : splitSlash t = [t] := by
  induction t with
  | nil => rfl
  | cons c tl ih =>
    rw [splitSlash_cons (by intro he; exact h (by rw [he]; simp)) tl,
      ih (fun hm => h (by simp [hm]))]

theorem splitSlash_append_slash {t : List Char} (h : '/' ∉ t) (l : List Char) :
    splitSlash (t ++ '/' :: l) = t :: splitSlash l := by
  induction t with
  | nil =>
    simp only [List.nil_append]
    rw [splitSlash_slash]
  | cons c tl ih =>
    simp only [List.cons_append]
    rw [splitSlash_cons (by intro he; exact h (by rw [he]; simp)) _,
      ih (fun hm => h (by simp [hm]))]

theorem joinSlash_cons_ne {x : List Char} {L : List (List Char)} (h : L ≠ []) :
    joinSlash (x :: L) = x ++ '/' :: joinSlash L := by
  cases L with
  | nil => exact absurd rfl h
  | cons y t => rfl

theorem splitSlash_join {ts : List (List Char)} (hne : ts ≠ [])
    (h : ∀ t ∈ ts, '/' ∉ t) :
    splitSlash (joinSlash ts) = ts := by
  induction ts with
  | nil => exact absurd rfl hne
  | cons t tr ih =>
    cases tr with
    | nil => exact splitSlash_no_slash (h t (by simp))
    | cons t2 tr2 =>
      rw [joinSlash_cons_ne (by simp), splitSlash_append_slash (h t (by simp)),
        ih (by simp) (fun x hx => h x (by simp [hx]))]

/-! ### Compilation of rendered segment lists -/

theorem slash_not_mem_brtok (i : Int) : '/' ∉ '[' :: intToChars i ++ [']'] := by
  intro hm
  simp only [List.cons_append, List.mem_cons, List.mem_append, List.mem_singleton] at hm
  rcases hm with h | h | h
  · exact absurd h (by decide)
  · exact slash_not_mem_intToChars i h
  · exact absurd h (by decide)

theorem comp_toks_ne_nil (c : Comp) : c.toks ≠ [] := by
  cases c <;> simp [Comp.toks]

theorem comp_toks_no_slash {c : Comp} (h : c.wfB = true) : ∀ t ∈ c.toks, '/' ∉ t := by
  cases c with
  | plain k =>
    intro t ht
    rw [Comp.toks, List.mem_singleton] at ht
    subst ht
    intro hm
    exact absurd (wordKeyB_all h '/' hm) (by decide)
  | idx k i =>
    intro t ht
    rw [Comp.toks, List.mem_cons, List.mem_singleton] at ht
    rcases ht with ht | ht
    · subst ht
      intro hm
      exact absurd (wordKeyB_all h '/' hm) (by decide)
    · subst ht
      exact slash_not_mem_brtok i

theorem flat_toks_ne_nil (c : Comp) (cr : List Comp) :
    (c :: cr).flatMap Comp.toks ≠ [] := by
  rw [List.flatMap_cons]
  intro hcontra
  rcases List.append_eq_nil.mp hcontra with ⟨h1, _⟩
  exact comp_toks_ne_nil c h1

theorem subSlash_render : ∀ {comps : List Comp}, (∀ c ∈ comps, Comp.wfB c = true) →
    subSlash (joinSlash (comps.map Comp.render)) = joinSlash (comps.flatMap Comp.toks)
  | [], _ => by simp [joinSlash, subSlash_nil]
  | [Comp.plain k], h => by
    have hw : wordKeyB k = true := by
      simpa [Comp.wfB, Comp.key] using h (Comp.plain k) (by simp)
    simp only [List.map_cons, List.map_nil, List.flatMap_cons, List.flatMap_nil]
    rw [show joinSlash [Comp.render (.plain k)] = k from rfl]
    rw [subSlash_word_only (wordKeyB_ne_nil hw) (wordKeyB_all hw)]
    rfl
  | [Comp.idx k i], h => by
    have hw : wordKeyB k = true := by
      simpa [Comp.wfB, Comp.key] using h (Comp.idx k i) (by simp)
    have hsh : joinSlash ([Comp.idx k i].map Comp.render) =
        k ++ ('[' :: intToChars i ++ ']' :: ([] : List Char)) := by
      simp [Comp.render, joinSlash]
    rw [hsh, subSlash_word_br (wordKeyB_ne_nil hw) (wordKeyB_all hw), subSlash_nil]
    simp [Comp.toks, joinSlash, joinSlash_cons_ne]
  | Comp.plain k :: c2 :: cr, h => by
    have hw : wordKeyB k = true := by
      simpa [Comp.wfB, Comp.key] using h (Comp.plain k) (by simp)
    have hrest : ((c2 :: cr).map Comp.render) ≠ [] := by simp
    rw [List.map_cons, joinSlash_cons_ne hrest,
      show Comp.render (.plain k) = k from rfl,
      subSlash_word_slash (wordKeyB_ne_nil hw) (wordKeyB_all hw),
      subSlash_render (fun c hc => h c (by simp [hc]))]
    have hL : (Comp.plain k :: c2 :: cr).flatMap Comp.toks
        = k :: (Comp.toks c2 ++ cr.flatMap Comp.toks) := by
      simp [Comp.toks]
    rw [hL, joinSlash_cons_ne
      (by intro hc; exact comp_toks_ne_nil c2 (List.append_eq_nil.mp hc).1)]
    simp
  | Comp.idx k i :: c2 :: cr, h => by
    have hw : wordKeyB k = true := by
      simpa [Comp.wfB, Comp.key] using h (Comp.idx k i) (by simp)
    have hrest : ((c2 :: cr).map Comp.render) ≠ [] := by simp
    have hsh : joinSlash ((Comp.idx k i :: c2 :: cr).map Comp.render) =
        k ++ ('[' :: intToChars i ++ ']' ::
          ('/' :: joinSlash ((c2 :: cr).map Comp.render))) := by
      rw [List.map_cons, joinSlash_cons_ne hrest]
      simp [Comp.render]
    rw [hsh, subSlash_word_br (wordKeyB_ne_nil hw) (wordKeyB_all hw), subSlash_slash,
      subSlash_render (fun c hc => h c (by simp [hc]))]
    have hL : (Comp.idx k i :: c2 :: cr).flatMap Comp.toks
        = k :: ('[' :: intToChars i ++ [']']) :: (Comp.toks c2 ++ cr.flatMap Comp.toks) := by
      simp [Comp.toks]
    rw [hL, joinSlash_cons_ne (by simp), joinSlash_cons_ne
      (by intro hc; exact comp_toks_ne_nil c2 (List.append_eq_nil.mp hc).1)]
    simp

theorem map_make_command_toks {comps : List Comp} (h : ∀ c ∈ comps, Comp.wfB c = true) :
    (comps.flatMap Comp.toks).map make_command = comps.flatMap Comp.cmds := by
  induction comps with
  | nil => rfl
  | cons c cr ih =>
    rw [List.flatMap_cons, List.flatMap_cons, List.map_append,
      ih (fun x hx => h x (by simp [hx]))]
    congr 1
    cases c with
    | plain k =>
      have hw : wordKeyB k = true := by
        simpa [Comp.wfB, Comp.key] using h (Comp.plain k) (by simp)
      simp [Comp.toks, Comp.cmds, make_command_word hw]
    | idx k i =>
      have hw : wordKeyB k = true := by
        simpa [Comp.wfB, Comp.key] using h (Comp.idx k i) (by simp)
      have hbr := make_command_intBr i []
      simp only [Comp.toks, Comp.cmds, List.map_cons, List.map_nil,
        make_command_word hw]
      rw [show ('[' :: intToChars i ++ [']'] : List Char)
          = '[' :: intToChars i ++ ']' :: ([] : List Char) from rfl, hbr]

theorem read_path_cons {c : Char} (hc : c ≠ '/') (rest : List Char) :
    read_path (c :: rest) = some ((splitSlash (subSlash (c :: rest))).map make_command) := by
  unfold read_path
  simp [hc]

theorem read_path_render {comps : List Comp} (hne : comps ≠ [])
    (h : ∀ c ∈ comps, Comp.wfB c = true) :
    read_path (joinSlash (comps.map Comp.render)) = some (comps.flatMap Comp.cmds) := by
  cases comps with
  | nil => exact absurd rfl hne
  | cons c0 cr =>
    have hw : wordKeyB c0.key = true := by
      have := h c0 (by simp)
      rw [Comp.wfB] at this
      exact this
    obtain ⟨ch, ktl, hk⟩ : ∃ ch ktl, c0.key = ch :: ktl := by
      cases hkk : c0.key with
      | nil => exact absurd hkk (wordKeyB_ne_nil hw)
      | cons a b => exact ⟨a, b, rfl⟩
    have hch : isWordChar ch = true := wordKeyB_all hw ch (by rw [hk]; simp)
    obtain ⟨u, hu⟩ : ∃ u, joinSlash ((c0 :: cr).map Comp.render) = Comp.render c0 ++ u := by
      cases cr with
      | nil => exact ⟨[], by simp [joinSlash]⟩
      | cons c1 cr1 =>
        exact ⟨'/' :: joinSlash ((c1 :: cr1).map Comp.render), by
          rw [List.map_cons, joinSlash_cons_ne (by simp)]⟩
    obtain ⟨s, hs⟩ : ∃ s, Comp.render c0 = ch :: s := by
      cases c0 with
      | plain k =>
        rw [Comp.key] at hk
        exact ⟨ktl, by rw [Comp.render, hk]⟩
      | idx k i =>
        rw [Comp.key] at hk
        exact ⟨ktl ++ ('[' :: intToChars i ++ [']']), by rw [Comp.render, hk]; simp⟩
    have hj : joinSlash ((c0 :: cr).map Comp.render) = ch :: (s ++ u) := by
      rw [hu, hs]
      simp
    rw [hj, read_path_cons (isWordChar_ne hch).1, ← hj,
      subSlash_render h,
      splitSlash_join (flat_toks_ne_nil c0 cr)
        (fun t ht => by
          rw [List.flatMap_cons, List.mem_append] at ht
          rcases ht with ht | ht
          · exact comp_toks_no_slash (h c0 (by simp)) t ht
          · obtain ⟨cx, hcx, htx⟩ := List.mem_flatMap.mp ht
            exact comp_toks_no_slash (h cx (by simp [hcx])) t htx),
      map_make_command_toks h]

/-! ### Read-engine lemmas -/

theorem process_commands_append (cs1 cs2 : List PathCommand) (b : List Value) :
    process_commands (cs1 ++ cs2) b =
      match process_commands cs1 b with
      | some b1 => process_commands cs2 b1
      | none => none := by
  induction cs1 generalizing b with
  | nil => rfl
  | cons c cr ih =>
    cases c with
    | throughDictKey k =>
      simp only [List.cons_append, process_commands]
      exact ih _
    | throughListIndexed i =>
      simp only [List.cons_append, process_commands]
      cases go_through_list_index i b with
      | some b2 => exact ih b2
      | none => rfl
    | throughListFlat =>
      simp only [List.cons_append, process_commands]
      exact ih _
    | throughDictFlat =>
      simp only [List.cons_append, process_commands]
      exact ih _

theorem process_commands_nil_batch (cs : List PathCommand) :
    process_commands cs [] = some [] := by
  induction cs with
  | nil => rfl
  | cons c cr ih =>
    cases c with
    | throughDictKey k => simpa [process_commands, go_through_dict_key] using ih
    | throughListIndexed i => simpa [process_commands, go_through_list_index] using ih
    | throughListFlat => simpa [process_commands, go_through_list_flat] using ih
    | throughDictFlat => simpa [process_commands, go_through_dict_flat] using ih

theorem pyIndex_nonneg_lt {l : List Value} {i : Int} (h : 0 ≤ i)
    (hl : i < (l.length : Int)) : ∃ w, pyIndex l i = some w := by
  unfold pyIndex
  rw [if_pos h]
  have hlt : i.toNat < l.length := by omega
  exact ⟨l.get ⟨i.toNat, hlt⟩, List.get?_eq_get hlt⟩

theorem go_through_list_index_nonneg {i : Int} (h : 0 ≤ i) (b : List Value) :
    ∃ r, go_through_list_index i b = some r := by
  induction b with
  | nil => exact ⟨[], rfl⟩
  | cons v rest ih =>
    obtain ⟨r, hr⟩ := ih
    cases v with
    | seq l =>
      by_cases hl : (l.length : Int) > i
      · obtain ⟨w, hw⟩ := pyIndex_nonneg_lt h hl
        exact ⟨w :: r, by simp [go_through_list_index, hl, hw, hr]⟩
      · exact ⟨r, by simp [go_through_list_index, hl, hr]⟩
    | null => exact ⟨r, by simpa [go_through_list_index] using hr⟩
    | bool b2 => exact ⟨r, by simpa [go_through_list_index] using hr⟩
    | int n => exact ⟨r, by simpa [go_through_list_index] using hr⟩
    | str s => exact ⟨r, by simpa [go_through_list_index] using hr⟩
    | map es => exact ⟨r, by simpa [go_through_list_index] using hr⟩

theorem process_commands_total {cs : List PathCommand}
    (h : ∀ i, PathCommand.throughListIndexed i ∈ cs → 0 ≤ i) (b : List Value) :
    ∃ r, process_commands cs b = some r := by
  induction cs generalizing b with
  | nil => exact ⟨b, rfl⟩
  | cons c cr ih =>
    cases c with
    | throughDictKey k =>
      simpa [process_commands] using ih (fun i hi => h i (by simp [hi])) _
    | throughListIndexed i =>
      obtain ⟨b2, hb2⟩ := go_through_list_index_nonneg (h i (by simp)) b
      obtain ⟨r, hr⟩ := ih (fun j hj => h j (by simp [hj])) b2
      exact ⟨r, by simp [process_commands, hb2, hr]⟩
    | throughListFlat =>
      simpa [process_commands] using ih (fun i hi => h i (by simp [hi])) _
    | throughDictFlat =>
      simpa [process_commands] using ih (fun i hi => h i (by simp [hi])) _

theorem go_through_list_index_neg_short {i : Int} {l : List Value} {items : List Value}
    (hi : i < 0) (hmem : Value.seq l ∈ items) (hlen : (l.length : Int) < -i) :
    go_through_list_index i items = none := by
  induction items with
  | nil => cases hmem
  | cons v rest ih =>
    rw [List.mem_cons] at hmem
    rcases hmem with hv | hv
    · subst hv
      have hg : (l.length : Int) > i := by omega
      have hp : pyIndex l i = none := by
        unfold pyIndex
        rw [if_neg (by omega), if_neg (by omega)]
      simp [go_through_list_index, hg, hp]
    · cases v with
      | seq l2 =>
        have hg : (l2.length : Int) > i := by
          have : (0 : Int) ≤ (l2.length : Int) := by positivity
          omega
        cases hp : pyIndex l2 i with
        | some w => simp [go_through_list_index, hg, hp, ih hv]
        | none => simp [go_through_list_index, hg, hp]
      | null => simpa [go_through_list_index] using ih hv
      | bool b2 => simpa [go_through_list_index] using ih hv
      | int n => simpa [go_through_list_index] using ih hv
      | str s => simpa [go_through_list_index] using ih hv
      | map es => simpa [go_through_list_index] using ih hv

/-! ### Claim C1: top-level result policy of `dget` -/

/-- C1: for every tree `t` and path `p`, if the compiled command sequence of
`p` contains at least one `DictFlat` (`*`) or `ListFlat` (`[*]`) command and
the final batch is non-empty, `dget t p default` returns the entire final
batch as a list (even a one-element batch, e.g.
`dget {"a": {"x": 1}} "a/*" = [1]`); if the compiled sequence contains no
flattening command and the final batch is non-empty, `dget` returns only the
first element of the batch, discarding any others. -/
theorem C1_result_policy {t : Value} {p : String} {D : Value}
    {cmds : List PathCommand} {r : Value} {rs : List Value}
    (hrp : read_path p.data = some cmds)
    (hpc : process_commands cmds [t] = some (r :: rs)) :
    ((PathCommand.throughListFlat ∈ cmds ∨ PathCommand.throughDictFlat ∈ cmds) →
      dget t p D = some (.seq (r :: rs))) ∧
    ((PathCommand.throughListFlat ∉ cmds ∧ PathCommand.throughDictFlat ∉ cmds) →
      dget t p D = some r) := by
  constructor
  · intro hf
    unfold dget
    rw [hrp]
    simp only [hpc]
    rw [if_pos hf]
  · intro hnf
    unfold dget
    rw [hrp]
    simp only [hpc]
    rw [if_neg (by tauto)]

/-- Witness for C1 at the spec's own example `dget({"a": {"x": 1}}, "a/*")`
(a flattening command present, a one-element final batch, result `[1]`), and
at the flat-free path `a/x` (result the bare scalar `1`). -/
theorem C1_result_policy_witness :
    dget (Value.map [("a", Value.map [("x", Value.int 1)])]) "a/*" Value.null
      = some (Value.seq [Value.int 1]) ∧
    dget (Value.map [("a", Value.map [("x", Value.int 1)])]) "a/x" Value.null
      = some (Value.int 1) :=
  ⟨(@C1_result_policy (Value.map [("a", Value.map [("x", Value.int 1)])])
      "a/*" Value.null
      [PathCommand.throughDictKey "a", PathCommand.throughDictFlat]
      (Value.int 1) [] rfl rfl).1 (Or.inr (by simp)),
   (@C1_result_policy (Value.map [("a", Value.map [("x", Value.int 1)])])
      "a/x" Value.null
      [PathCommand.throughDictKey "a", PathCommand.throughDictKey "x"]
      (Value.int 1) [] rfl rfl).2 (by simp)⟩

/-! ### Claim C6: empty final batch returns the default -/

/-- C6: for every tree `t`, path `p` and sentinel `D`, if `p` does not
resolve in `t` — the traversal completes with an empty final batch — then
`dget t p D = D`. -/
theorem C6_default_on_empty {t : Value} {p : String} {D : Value}
    {cmds : List PathCommand}
    (hrp : read_path p.data = some cmds)
    (hpc : process_commands cmds [t] = some []) :
    dget t p D = some D := by
  unfold dget
  rw [hrp]
  simp only [hpc]

/-- Witness for C6: a missing top-level key with sentinel `7`. -/
theorem C6_default_on_empty_witness :
    dget (Value.map [("a", Value.int 1)]) "b" (Value.int 7) = some (Value.int 7) :=
  @C6_default_on_empty (Value.map [("a", Value.int 1)]) "b" (Value.int 7)
    [PathCommand.throughDictKey "b"] rfl rfl

/-! ### Claim C2: exception behavior of `dget` (corrected) -/

/-- C2 counterexample: the claim says `dget` never raises on a non-empty
path, with sequences too short for a negative index silently dropped.  In
the source, `go_through_list_index` guards only `len(item) > index`, which
is vacuous for a negative index, and `item[-2]` on the one-element list
`[1]` raises `IndexError`: `dget([1], "[-2]")` raises (modelled `none`)
instead of returning the default. -/
theorem C2_counterexample :
    dget (Value.seq [Value.int 1]) "[-2]" Value.null = none := rfl

/-- C2 amended: for every tree, non-empty path and default, `dget` raises no
exception provided every compiled `ListIndex` command has a non-negative
index — type-mismatched items, missing keys, and non-negative out-of-range
indices are silently dropped.  A negative index `i` resolves Python-style
against each sequence's own length (so `dget([1,2,3], "[-1]") = 3`), but a
batch containing a sequence shorter than `-i` makes the traversal raise
`IndexError` rather than dropping that item. -/
theorem C2_no_raise_amended :
    (∀ (t : Value) (p : String) (D : Value) (cmds : List PathCommand),
        read_path p.data = some cmds →
        (∀ i, PathCommand.throughListIndexed i ∈ cmds → 0 ≤ i) →
        ∃ r, dget t p D = some r) ∧
    (∀ D : Value, dget (Value.seq [Value.int 1, Value.int 2, Value.int 3]) "[-1]" D
        = some (Value.int 3)) ∧
    (∀ (i : Int) (l : List Value) (items : List Value), i < 0 → Value.seq l ∈ items →
        (l.length : Int) < -i → go_through_list_index i items = none) := by
  refine ⟨?_, ?_, ?_⟩
  · intro t p D cmds hrp hnn
    obtain ⟨r, hr⟩ := process_commands_total hnn [t]
    unfold dget
    rw [hrp]
    simp only [hr]
    cases r with
    | nil => exact ⟨D, rfl⟩
    | cons a as =>
      by_cases hf : (PathCommand.throughListFlat ∈ cmds ∨ PathCommand.throughDictFlat ∈ cmds)
      · refine ⟨Value.seq (a :: as), ?_⟩
        show (if PathCommand.throughListFlat ∈ cmds ∨ PathCommand.throughDictFlat ∈ cmds
            then some (Value.seq (a :: as)) else some a) = _
        rw [if_pos hf]
      · refine ⟨a, ?_⟩
        show (if PathCommand.throughListFlat ∈ cmds ∨ PathCommand.throughDictFlat ∈ cmds
            then some (Value.seq (a :: as)) else some a) = _
        rw [if_neg hf]
  · intro D
    rfl
  · exact fun i l items hi hm hl => go_through_list_index_neg_short hi hm hl

/-- Witness for C2 (amended) at concrete inputs: a non-negative-index path
never raises, `[-1]` on `[1,2,3]` reads `3`, and a `(-2)`-index step over a
batch holding the one-element sequence `[1]` raises. -/
theorem C2_no_raise_amended_witness :
    (∃ r, dget (Value.map [("a", Value.int 5)]) "a" Value.null = some r) ∧
    dget (Value.seq [Value.int 1, Value.int 2, Value.int 3]) "[-1]" Value.null
      = some (Value.int 3) ∧
    go_through_list_index (-2) [Value.seq [Value.int 1]] = none :=
  ⟨C2_no_raise_amended.1 (Value.map [("a", Value.int 5)]) "a" Value.null
      [PathCommand.throughDictKey "a"] rfl
      (by intro i hi; simp at hi),
   C2_no_raise_amended.2.1 Value.null,
   C2_no_raise_amended.2.2 (-2) [Value.int 1] [Value.seq [Value.int 1]]
      (by decide) (by simp) (by decide)⟩

/-! ### Claim C7: the path compiler (corrected) -/

theorem matchListIdx_shape {tok : List Char} {i : Int} (h : matchListIdx tok = some i) :
    ∃ (sgn ds rest : List Char), (sgn = [] ∨ sgn = ['-']) ∧ ds ≠ [] ∧
      (∀ c ∈ ds, c.isDigit = true) ∧ tok = '[' :: (sgn ++ ds) ++ ']' :: rest := by
  unfold matchListIdx at h
  split at h
  · rename_i rest2
    rw [Option.map_eq_some'] at h
    obtain ⟨p, hp, _⟩ := h
    have hp2 : bracketBody rest2 = some (p.1, p.2) := hp
    obtain ⟨hne, hds, heq⟩ := bracketBody_eq_some hp2
    exact ⟨['-'], p.1, p.2, Or.inr rfl, hne, hds, by rw [heq]; simp⟩
  · rename_i rest2 hno
    rw [Option.map_eq_some'] at h
    obtain ⟨p, hp, _⟩ := h
    have hp2 : bracketBody rest2 = some (p.1, p.2) := hp
    obtain ⟨hne, hds, heq⟩ := bracketBody_eq_some hp2
    exact ⟨[], p.1, p.2, Or.inl rfl, hne, hds, by rw [heq]; simp⟩
  · cases h

theorem matchListIdx_neg_digitBr {ds : List Char} (hne : ds ≠ [])
    (hds : ∀ c ∈ ds, c.isDigit = true) (rest : List Char) :
    matchListIdx ('[' :: ('-' :: ds) ++ ']' :: rest) = some (-(digitsToNat ds : Int)) := by
  have hsh : ('[' :: ('-' :: ds) ++ ']' :: rest : List Char)
      = '[' :: '-' :: (ds ++ ']' :: rest) := by simp
  rw [hsh, matchListIdx_dash, bracketBody_digits hne hds]
  rfl

theorem make_command_digitBr {ds : List Char} (hne : ds ≠ [])
    (hds : ∀ c ∈ ds, c.isDigit = true) (rest : List Char) :
    make_command ('[' :: ds ++ ']' :: rest) =
      PathCommand.throughListIndexed ((digitsToNat ds : Int)) := by
  cases ds with
  | nil => exact absurd rfl hne
  | cons d tl =>
    have hd : d.isDigit = true := hds d (by simp)
    have h1 : ('[' :: (d :: tl) ++ ']' :: rest : List Char) ≠ ['*'] := by
      intro he
      injection he with hh _
      exact absurd hh (by decide)
    have h2 : ('[' :: (d :: tl) ++ ']' :: rest : List Char) ≠ ['[', '*', ']'] := by
      intro he
      injection he with _ he2
      have : (d :: (tl ++ ']' :: rest) : List Char) = ['*', ']'] := by simpa using he2
      injection this with hd2 _
      rw [hd2] at hd
      exact absurd hd (by decide)
    unfold make_command
    rw [if_neg h1, if_neg h2, matchListIdx_digitBr hne hds]

theorem make_command_neg_digitBr {ds : List Char} (hne : ds ≠ [])
    (hds : ∀ c ∈ ds, c.isDigit = true) (rest : List Char) :
    make_command ('[' :: ('-' :: ds) ++ ']' :: rest) =
      PathCommand.throughListIndexed (-(digitsToNat ds : Int)) := by
  have h1 : ('[' :: ('-' :: ds) ++ ']' :: rest : List Char) ≠ ['*'] := by
    intro he
    injection he with hh _
    exact absurd hh (by decide)
  have h2 : ('[' :: ('-' :: ds) ++ ']' :: rest : List Char) ≠ ['[', '*', ']'] := by
    intro he
    injection he with _ he2
    simp at he2
  unfold make_command
  rw [if_neg h1, if_neg h2, matchListIdx_neg_digitBr hne hds]

theorem make_command_no_idx {tok : List Char} (h1 : tok ≠ ['*'])
    (h2 : tok ≠ ['[', '*', ']'])
    (h3 : ¬∃ (sgn ds rest : List Char), (sgn = [] ∨ sgn = ['-']) ∧ ds ≠ [] ∧
      (∀ c ∈ ds, c.isDigit = true) ∧ tok = '[' :: (sgn ++ ds) ++ ']' :: rest) :
    make_command tok = PathCommand.throughDictKey ⟨tok⟩ := by
  unfold make_command
  rw [if_neg h1, if_neg h2]
  cases hmi : matchListIdx tok with
  | some i => exact absurd (matchListIdx_shape hmi) h3
  | none => rfl

theorem read_path_strip {c : Char} (hc : c ≠ '/') (rest : List Char) :
    read_path ('/' :: c :: rest) = read_path (c :: rest) := by
  rw [read_path_cons hc]
  unfold read_path
  simp

/-- C7 counterexample: the claim classifies any token other than `*`, `[*]`
or a lone bracketed signed integer as a literal dictionary key, but
`re.match` in `make_command` is anchored only at the start, so the token
`[5]x` — not a lone `[5]` — still compiles to `ListIndex 5`, not to
`DictKey "[5]x"`. -/
theorem C7_counterexample :
    read_path "[5]x".data = some [PathCommand.throughListIndexed 5] ∧
    PathCommand.throughListIndexed 5 ≠ PathCommand.throughDictKey "[5]x" :=
  ⟨rfl, by decide⟩

/-- C7 amended: the compiler strips a single leading slash
(`read_path ("/" ++ p) = read_path p` for `p` not starting with a slash);
a step `key[idx]` (word-character key immediately followed by a bracketed
signed integer) is split into `DictKey key` then `ListIndex idx`, and
`*[idx]` into `DictFlat` then `ListIndex idx`; tokens are classified as
`*` → `DictFlat`, `[*]` → `ListFlat`, a token whose PREFIX is a bracketed
signed integer → `ListIndex` of that integer (trailing characters after the
closing bracket are ignored), and any other token → `DictKey` of the literal
token. -/
theorem C7_compiler_amended :
    (∀ (c : Char) (rest : List Char), c ≠ '/' →
        read_path ('/' :: c :: rest) = read_path (c :: rest)) ∧
    (∀ (k : List Char) (i : Int), wordKeyB k = true →
        read_path (k ++ ('[' :: intToChars i ++ [']'])) =
          some [PathCommand.throughDictKey ⟨k⟩, PathCommand.throughListIndexed i]) ∧
    (∀ i : Int, read_path ('*' :: ('[' :: intToChars i ++ [']'])) =
        some [PathCommand.throughDictFlat, PathCommand.throughListIndexed i]) ∧
    make_command ['*'] = PathCommand.throughDictFlat ∧
    make_command ['[', '*', ']'] = PathCommand.throughListFlat ∧
    (∀ (ds rest : List Char), ds ≠ [] → (∀ c ∈ ds, c.isDigit = true) →
        make_command ('[' :: ds ++ ']' :: rest) =
          PathCommand.throughListIndexed ((digitsToNat ds : Int)) ∧
        make_command ('[' :: ('-' :: ds) ++ ']' :: rest) =
          PathCommand.throughListIndexed (-(digitsToNat ds : Int))) ∧
    (∀ tok : List Char, tok ≠ ['*'] → tok ≠ ['[', '*', ']'] →
        (¬∃ (sgn ds rest : List Char), (sgn = [] ∨ sgn = ['-']) ∧ ds ≠ [] ∧
          (∀ c ∈ ds, c.isDigit = true) ∧ tok = '[' :: (sgn ++ ds) ++ ']' :: rest) →
        make_command tok = PathCommand.throughDictKey ⟨tok⟩) := by
  refine ⟨?_, ?_, ?_, rfl, rfl, ?_, ?_⟩
  · exact fun c rest hc => read_path_strip hc rest
  · intro k i hw
    have hsh : k ++ ('[' :: intToChars i ++ [']'])
        = joinSlash ([Comp.idx k i].map Comp.render) := by
      simp [Comp.render, joinSlash]
    rw [hsh, read_path_render (by simp)
      (by intro c hc; rw [List.mem_singleton] at hc; subst hc; exact hw)]
    rfl
  · intro i
    have hb : bracketSplit ('[' :: intToChars i ++ [']'])
        = some ('[' :: intToChars i ++ [']'], []) := bracketSplit_intBr i []
    rw [read_path_cons (by decide), subSlash_cons_some (by decide) hb, subSlash_nil,
      List.append_nil]
    have hsp : splitSlash ('*' :: '/' :: ('[' :: intToChars i ++ [']']))
        = ['*'] :: splitSlash ('[' :: intToChars i ++ [']']) :=
      splitSlash_append_slash (t := ['*']) (by decide) _
    rw [hsp, splitSlash_no_slash (slash_not_mem_brtok i)]
    rw [List.map_cons, List.map_cons, List.map_nil]
    rw [show make_command ['*'] = PathCommand.throughDictFlat from rfl,
      make_command_intBr i []]
  · exact fun ds rest hne hds =>
      ⟨make_command_digitBr hne hds rest, make_command_neg_digitBr hne hds rest⟩
  · exact fun tok h1 h2 h3 => make_command_no_idx h1 h2 h3

/-- Witness for C7 (amended) at concrete inputs. -/
theorem C7_compiler_amended_witness :
    read_path "/a".data = read_path "a".data ∧
    read_path ("ab".data ++ ('[' :: intToChars 3 ++ [']'])) =
      some [PathCommand.throughDictKey "ab", PathCommand.throughListIndexed 3] ∧
    read_path ('*' :: ('[' :: intToChars 2 ++ [']'])) =
      some [PathCommand.throughDictFlat, PathCommand.throughListIndexed 2] ∧
    make_command ('[' :: ['5'] ++ ']' :: "x".data) = PathCommand.throughListIndexed 5 ∧
    make_command "ab".data = PathCommand.throughDictKey "ab" :=
  ⟨C7_compiler_amended.1 'a' [] (by decide),
   C7_compiler_amended.2.1 "ab".data 3 (by decide),
   C7_compiler_amended.2.2.1 2,
   (C7_compiler_amended.2.2.2.2.2.1 ['5'] "x".data (by decide) (by decide)).1,
   C7_compiler_amended.2.2.2.2.2.2 "ab".data (by decide) (by decide)
     (by
       rintro ⟨sgn, ds, rest, _, _, _, heq⟩
       injection heq with hh _
       exact absurd hh (by decide))⟩

/-! ### Claim C10: `dwalk` on sequence roots (corrected) -/

/-- C10 counterexample: the claim quantifies over every root value that is a
sequence, but for the empty top-level list the `for` loop body never runs:
`dwalk([])` completes without raising and yields nothing (`some []`), it does
not raise `IndexError` (`none`). -/
theorem C10_counterexample :
    dwalk (Value.seq []) = some [] ∧
    (some [] : Option (List (String × Value))) ≠ none :=
  ⟨rfl, fun h => Option.noConfusion h⟩

/-- C10 amended: for every root value that is a sequence with at least one
element, iterating `dwalk` raises `IndexError` before yielding any pair
(`subpath[-1]` fails on the empty accumulated path at the first iteration);
a root that is an empty sequence yields nothing and raises no error. -/
theorem C10_root_seq_amended :
    (∀ (v : Value) (items : List Value), dwalk (Value.seq (v :: items)) = none) ∧
    dwalk (Value.seq []) = some [] :=
  ⟨fun _ _ => rfl, rfl⟩

/-! ### Claim C8: `dget2` is fail-fast on caught exceptions -/

theorem dget2_loop_append (pre post : List (List Char)) (d : Value) :
    dget2_loop (pre ++ post) d =
      match dget2_loop pre d with
      | .ok d2 => dget2_loop post d2
      | .error e => .error e := by
  induction pre generalizing d with
  | nil => rfl
  | cons seg rest ih =>
    show (match dget2_step seg d with
          | .ok d2 => dget2_loop (rest ++ post) d2
          | .error e => .error e) =
      match (match dget2_step seg d with
             | .ok d2 => dget2_loop rest d2
             | .error e => (.error e : Except PyErr Value)) with
      | .ok d2 => dget2_loop post d2
      | .error e => .error e
    cases dget2_step seg d with
    | ok d2 => exact ih d2
    | error e => rfl

/-- C8: the legacy reader is fail-fast: if, at some segment of `dget2`'s
segment-by-segment traversal, the step raises a `KeyError`/`TypeError`/
`IndexError`-class exception, the whole traversal is aborted at that point
and `dget2 t p default` returns the default immediately — the remaining
segments after the failing one are never processed (the conclusion holds for
every `post`). -/
theorem C8_fail_fast {t : Value} {p : String} {D : Value}
    {pre post : List (List Char)} {seg : List Char} {d : Value}
    (hsplit : splitSlash (stripSlash p.data) = pre ++ seg :: post)
    (hpre : dget2_loop pre t = .ok d)
    (hstep : dget2_step seg d = .error .caught) :
    dget2 t p D = some D := by
  unfold dget2
  rw [hsplit, dget2_loop_append]
  simp only [hpre, dget2_loop, hstep]

/-- Witness for C8: a missing key at the first of three segments returns the
default immediately. -/
theorem C8_fail_fast_witness :
    dget2 (Value.map [("a", Value.int 1)]) "b/c/d" (Value.int 9) = some (Value.int 9) :=
  @C8_fail_fast (Value.map [("a", Value.int 1)]) "b/c/d" (Value.int 9)
    [] ["c".data, "d".data] "b".data (Value.map [("a", Value.int 1)]) rfl rfl rfl

/-! ### Python index and mapping-update laws -/

theorem pyIndex_some_of_ok {l : List Value} {i : Int} (h : pyOK l i) :
    pyResolve l.length i < l.length ∧
    pyIndex l i = l.get? (pyResolve l.length i) ∧
    ∀ w, pySet l i w = some (l.set (pyResolve l.length i) w) := by
  rcases h with ⟨h1, h2⟩ | ⟨h1, h2⟩
  · refine ⟨by simpa [pyResolve, h1] using h2, ?_, ?_⟩
    · unfold pyIndex pyResolve
      rw [if_pos h1, if_pos h1]
    · intro w
      unfold pySet pyResolve
      rw [if_pos h1, if_pos h1, if_pos h2]
  · have hres : pyResolve l.length i = ((l.length : Int) + i).toNat := by
      unfold pyResolve
      rw [if_neg (by omega)]
    have hlt : pyResolve l.length i < l.length := by
      rw [hres]
      omega
    refine ⟨hlt, ?_, ?_⟩
    · unfold pyIndex
      rw [if_neg (by omega), if_pos h2, ← hres]
    · intro w
      unfold pySet
      rw [if_neg (by omega), if_pos h2, ← hres]

theorem pyOK_of_pyIndex_some {l : List Value} {i : Int} {e : Value}
    (h : pyIndex l i = some e) : pyOK l i := by
  unfold pyIndex at h
  split at h
  · rename_i h1
    left
    exact ⟨h1, (List.get?_eq_some.mp h).1⟩
  · rename_i h1
    split at h
    · rename_i h2
      right
      exact ⟨by omega, h2⟩
    · cases h

theorem pyIndex_guard {l : List Value} {i : Int} {e : Value}
    (h : pyIndex l i = some e) : (l.length : Int) > i := by
  rcases pyOK_of_pyIndex_some h with ⟨h1, h2⟩ | ⟨h1, h2⟩ <;> omega

theorem pyOK_same_length {l l2 : List Value} {i : Int} (hlen : l2.length = l.length)
    (h : pyOK l i) : pyOK l2 i := by
  unfold pyOK at h ⊢
  rw [hlen]
  exact h

theorem assocGet_assocSet_self (es : List (String × Value)) (k : String) (v : Value) :
    assocGet (assocSet es k v) k = some v := by
  induction es with
  | nil => simp [assocSet, assocGet]
  | cons e rest ih =>
    obtain ⟨k2, w⟩ := e
    by_cases h : k2 = k
    · subst h
      simp [assocSet, assocGet]
    · simp [assocSet, assocGet, h, ih]

theorem assocSet_assocSet_same (es : List (String × Value)) (k : String) (v w : Value) :
    assocSet (assocSet es k v) k w = assocSet es k w := by
  induction es with
  | nil => simp [assocSet]
  | cons e rest ih =>
    obtain ⟨k2, u⟩ := e
    by_cases h : k2 = k
    · subst h
      simp [assocSet]
    · simp [assocSet, h, ih]

/-! ### Repetition-regex lemmas for rendered segments -/

theorem repMatchAt_some_lbrack {s : List Char} {m : List Char × List Char}
    (h : repMatchAt s = some m) : '[' ∈ s := by
  unfold repMatchAt at h
  split at h
  · cases h
  · rename_i g1 r1 hne hdw
    have hmem : '[' ∈ s.dropWhile isWordStar := by
      rw [hne]
      simp
    exact (List.dropWhile_sublist _).subset hmem
  · cases h

theorem repSearch_no_lbrack {s : List Char} (h : '[' ∉ s) : repSearch s = none := by
  induction s with
  | nil => rfl
  | cons c rest ih =>
    show (match repMatchAt (c :: rest) with
          | some m => some m
          | none => repSearch rest) = none
    cases hm : repMatchAt (c :: rest) with
    | some m => exact absurd (repMatchAt_some_lbrack hm) h
    | none => exact ih (fun hx => h (by simp [hx]))

theorem rep_of_word {k : List Char} (hw : wordKeyB k = true) :
    get_repetition_index k = .ok none := by
  have hnl : '[' ∉ k := by
    intro hm
    exact absurd (wordKeyB_all hw '[' hm) (by decide)
  unfold get_repetition_index
  rw [repSearch_no_lbrack hnl]

theorem intToChars_all_digitdash (i : Int) : ∀ c ∈ intToChars i, isDigitDash c = true := by
  unfold intToChars
  split
  · intro c hc
    rw [List.mem_cons] at hc
    rcases hc with hc | hc
    · subst hc
      decide
    · simp [isDigitDash, natDigits_all_digit _ _ hc]
  · intro c hc
    simp [isDigitDash, natDigits_all_digit _ _ hc]

theorem repMatchAt_render {k : List Char} (hne : k ≠ [])
    (hall : ∀ c ∈ k, isWordChar c = true) (i : Int) (tail : List Char) :
    repMatchAt (k ++ ('[' :: (intToChars i ++ (']' :: tail)))) = some (k, intToChars i) := by
  have hws : ∀ c ∈ k, isWordStar c = true := fun c hc => by
    simp [isWordStar, hall c hc]
  have hlb : isWordStar '[' = false := by decide
  have hrb : isDigitDash ']' = false := by decide
  unfold repMatchAt
  rw [takeWhile_all_append hws, dropWhile_all_append hws]
  have h1 : ('[' :: (intToChars i ++ (']' :: tail))).takeWhile isWordStar = [] := by
    rw [List.takeWhile_cons, hlb]
    simp
  have h2 : ('[' :: (intToChars i ++ (']' :: tail))).dropWhile isWordStar
      = '[' :: (intToChars i ++ (']' :: tail)) := by
    rw [List.dropWhile_cons, hlb]
    simp
  have h3 : (intToChars i ++ (']' :: tail)).takeWhile isDigitDash = intToChars i := by
    rw [takeWhile_all_append (intToChars_all_digitdash i), List.takeWhile_cons, hrb]
    simp
  have h4 : (intToChars i ++ (']' :: tail)).dropWhile isDigitDash = ']' :: tail := by
    rw [dropWhile_all_append (intToChars_all_digitdash i), List.dropWhile_cons, hrb]
    simp
  rw [h1, h2, List.append_nil]
  cases k with
  | nil => exact absurd rfl hne
  | cons c ktl =>
    show (match (intToChars i ++ (']' :: tail)).takeWhile isDigitDash,
               (intToChars i ++ (']' :: tail)).dropWhile isDigitDash with
          | [], _ => none
          | g2, ']' :: _ => some ((c :: ktl : List Char), g2)
          | _, _ => none) = some (c :: ktl, intToChars i)
    rw [h3, h4]
    cases hic : intToChars i with
    | nil => exact absurd hic (intToChars_ne_nil i)
    | cons d dtl => rfl

theorem repSearch_render {k : List Char} (hne : k ≠ [])
    (hall : ∀ c ∈ k, isWordChar c = true) (i : Int) (tail : List Char) :
    repSearch (k ++ ('[' :: (intToChars i ++ (']' :: tail)))) = some (k, intToChars i) := by
  cases k with
  | nil => exact absurd rfl hne
  | cons c ktl =>
    show (match repMatchAt ((c :: ktl) ++ ('[' :: (intToChars i ++ (']' :: tail)))) with
          | some m => some m
          | none => repSearch (ktl ++ ('[' :: (intToChars i ++ (']' :: tail))))) = _
    rw [repMatchAt_render hne hall i tail]

theorem parseRepInt_intToChars (i : Int) : parseRepInt (intToChars i) = some i := by
  by_cases hi : i < 0
  · rw [intToChars_neg hi]
    show (if natDigits (-i).toNat = [] then none
          else if (natDigits (-i).toNat).all Char.isDigit
          then some (-(digitsToNat (natDigits (-i).toNat) : Int)) else none) = some i
    rw [if_neg (natDigits_ne_nil _),
      if_pos (List.all_eq_true.mpr (fun c hc => natDigits_all_digit _ c hc)),
      digitsToNat_natDigits]
    congr 1
    omega
  · rw [intToChars_nonneg (by omega)]
    cases hnd : natDigits i.toNat with
    | nil => exact absurd hnd (natDigits_ne_nil _)
    | cons d tl =>
      have hd : d.isDigit = true := natDigits_all_digit _ d (by rw [hnd]; simp)
      unfold parseRepInt
      split
      · rename_i s2 ds2 heq
        injection heq with hd2 _
        rw [hd2] at hd
        exact absurd hd (by decide)
      · rw [if_neg (by simp), if_pos ?hall]
        case hall =>
          rw [List.all_eq_true]
          intro c hc
          have : c ∈ natDigits i.toNat := by
            rw [hnd]
            exact hc
          exact natDigits_all_digit _ c this
        rw [← hnd, digitsToNat_natDigits]
        congr 1
        omega

theorem rep_of_render_idx {k : List Char} (hw : wordKeyB k = true) (i : Int) :
    get_repetition_index (k ++ ('[' :: intToChars i ++ [']'])) = .ok (some (k, i)) := by
  have hsh : (k ++ ('[' :: intToChars i ++ [']']) : List Char)
      = k ++ ('[' :: (intToChars i ++ (']' :: []))) := by simp
  rw [hsh]
  unfold get_repetition_index
  rw [repSearch_render (wordKeyB_ne_nil hw) (wordKeyB_all hw) i []]
  show (match parseRepInt (intToChars i) with
        | some j => Except.ok (some (k, j))
        | none => (Except.error PyErr.uncaught : Except PyErr (Option (List Char × Int))))
      = Except.ok (some (k, i))
  rw [parseRepInt_intToChars]

/-! ### Per-segment behavior of the read engine on singleton batches -/

theorem go_dict_key_single_map (key : String) (es : List (String × Value)) :
    go_through_dict_key key [Value.map es] =
      match assocGet es key with
      | some v => [v]
      | none => [] := by
  cases h : assocGet es key <;> simp [go_through_dict_key, h]

theorem go_dict_key_single_inv {key : String} {d d' : Value}
    (h : go_through_dict_key key [d] = [d']) :
    ∃ es, d = Value.map es ∧ assocGet es key = some d' := by
  cases d with
  | map es =>
    cases hg : assocGet es key with
    | some v =>
      rw [go_dict_key_single_map, hg] at h
      injection h with h1 _
      exact ⟨es, rfl, by rw [hg, h1]⟩
    | none =>
      rw [go_dict_key_single_map, hg] at h
      cases h
  | null => simp [go_through_dict_key] at h
  | bool b => simp [go_through_dict_key] at h
  | int n => simp [go_through_dict_key] at h
  | str s => simp [go_through_dict_key] at h
  | seq l => simp [go_through_dict_key] at h

theorem go_dict_key_single_cases (key : String) (d : Value) :
    go_through_dict_key key [d] = [] ∨ ∃ u, go_through_dict_key key [d] = [u] := by
  cases d with
  | map es =>
    cases hg : assocGet es key with
    | some v => exact Or.inr ⟨v, by rw [go_dict_key_single_map, hg]⟩
    | none => exact Or.inl (by rw [go_dict_key_single_map, hg])
  | null => exact Or.inl (by simp [go_through_dict_key])
  | bool b => exact Or.inl (by simp [go_through_dict_key])
  | int n => exact Or.inl (by simp [go_through_dict_key])
  | str s => exact Or.inl (by simp [go_through_dict_key])
  | seq l => exact Or.inl (by simp [go_through_dict_key])

theorem go_list_index_single_inv {i : Int} {d d' : Value}
    (h : go_through_list_index i [d] = some [d']) :
    ∃ l, d = Value.seq l ∧ pyIndex l i = some d' := by
  cases d with
  | seq l =>
    by_cases hg : (l.length : Int) > i
    · cases hp : pyIndex l i with
      | some e =>
        simp [go_through_list_index, hg, hp] at h
        exact ⟨l, rfl, by rw [hp, h]⟩
      | none => simp [go_through_list_index, hg, hp] at h
    · simp [go_through_list_index, hg] at h
  | null => simp [go_through_list_index] at h
  | bool b => simp [go_through_list_index] at h
  | int n => simp [go_through_list_index] at h
  | str s => simp [go_through_list_index] at h
  | map es => simp [go_through_list_index] at h

theorem comp_step_plain {k : List Char} {d d' : Value}
    (h : process_commands [PathCommand.throughDictKey ⟨k⟩] [d] = some [d']) :
    ∃ es, d = Value.map es ∧ assocGet es ⟨k⟩ = some d' := by
  have he : process_commands [PathCommand.throughDictKey ⟨k⟩] [d]
      = some (go_through_dict_key ⟨k⟩ [d]) := rfl
  rw [he] at h
  injection h with h2
  exact go_dict_key_single_inv h2

theorem comp_step_idx {k : List Char} {i : Int} {d d' : Value}
    (h : process_commands
        [PathCommand.throughDictKey ⟨k⟩, PathCommand.throughListIndexed i] [d]
      = some [d']) :
    ∃ es l, d = Value.map es ∧ assocGet es ⟨k⟩ = some (Value.seq l) ∧
      pyIndex l i = some d' := by
  have he : process_commands
      [PathCommand.throughDictKey ⟨k⟩, PathCommand.throughListIndexed i] [d]
      = match go_through_list_index i (go_through_dict_key ⟨k⟩ [d]) with
        | some b => some b
        | none => none := rfl
  rw [he] at h
  rcases go_dict_key_single_cases ⟨k⟩ d with hdk | ⟨u, hdk⟩
  · rw [hdk] at h
    simp [go_through_list_index] at h
  · rw [hdk] at h
    cases hli : go_through_list_index i [u] with
    | none => rw [hli] at h; cases h
    | some b =>
      rw [hli] at h
      have hb : b = [d'] := by injection h
      subst hb
      obtain ⟨l, hu, hp⟩ := go_list_index_single_inv hli
      subst hu
      obtain ⟨es, hd, hg⟩ := go_dict_key_single_inv hdk
      exact ⟨es, l, hd, hg, hp⟩

/-! ### Correspondence of the two readers on restricted-grammar segments -/

theorem dget2_step_none {key : List Char} (h : get_repetition_index key = .ok none)
    (hk : key ≠ ['*']) (d : Value) :
    dget2_step key d = flatdget d (.str key) := by
  unfold dget2_step
  rw [h]
  exact if_neg hk

theorem dget2_step_rep {key k : List Char} {i : Int}
    (h : get_repetition_index key = .ok (some (k, i)))
    (hk : k ≠ ['*']) (d : Value) :
    dget2_step key d =
      match flatdget d (.str k) with
      | .ok d1 => flatdget d1 (.int i)
      | .error e => .error e := by
  unfold dget2_step
  rw [h]
  exact if_neg hk

theorem flatdget_map_str {es : List (String × Value)} {s : List Char} {v : Value}
    (h : assocGet es ⟨s⟩ = some v) : flatdget (.map es) (.str s) = .ok v := by
  show (match assocGet es ⟨s⟩ with
        | some w => Except.ok w
        | none => (Except.error PyErr.caught : Except PyErr Value)) = Except.ok v
  rw [h]

theorem flatdget_seq_int {l : List Value} {i : Int} {v : Value}
    (h : pyIndex l i = some v) : flatdget (.seq l) (.int i) = .ok v := by
  show (match pyIndex l i with
        | some w => Except.ok w
        | none => (Except.error PyErr.caught : Except PyErr Value)) = Except.ok v
  rw [h]

theorem step_corr {c : Comp} (hw : c.wfB = true) {d d' : Value}
    (h : process_commands c.cmds [d] = some [d']) :
    dget2_step (Comp.render c) d = .ok d' := by
  have hk : c.key ≠ ['*'] := by
    intro he
    have := wordKeyB_all (show wordKeyB c.key = true from hw) '*' (by rw [he]; simp)
    exact absurd this (by decide)
  cases c with
  | plain k =>
    obtain ⟨es, hd, hg⟩ := comp_step_plain h
    subst hd
    rw [show Comp.render (.plain k) = k from rfl,
      dget2_step_none (rep_of_word (show wordKeyB k = true from hw)) hk]
    exact flatdget_map_str hg
  | idx k i =>
    obtain ⟨es, l, hd, hg, hp⟩ := comp_step_idx h
    subst hd
    have hr : Comp.render (.idx k i) = k ++ ('[' :: intToChars i ++ [']']) := by
      rw [Comp.render, List.append_assoc]
    rw [hr, dget2_step_rep (rep_of_render_idx (show wordKeyB k = true from hw) i) hk,
      flatdget_map_str hg]
    exact flatdget_seq_int hp

theorem go_list_index_single_cases {i : Int} {u : Value} {b : List Value}
    (h : go_through_list_index i [u] = some b) : b = [] ∨ ∃ e, b = [e] := by
  cases u with
  | seq l =>
    by_cases hg : (l.length : Int) > i
    · cases hp : pyIndex l i with
      | some e =>
        simp [go_through_list_index, hg, hp] at h
        exact Or.inr ⟨e, h.symm⟩
      | none => simp [go_through_list_index, hg, hp] at h
    · simp [go_through_list_index, hg] at h
      exact Or.inl h
  | null => simp [go_through_list_index] at h; exact Or.inl h
  | bool b2 => simp [go_through_list_index] at h; exact Or.inl h
  | int n => simp [go_through_list_index] at h; exact Or.inl h
  | str s => simp [go_through_list_index] at h; exact Or.inl h
  | map es => simp [go_through_list_index] at h; exact Or.inl h

theorem comp_cmds_single {c : Comp} {d : Value} {b : List Value}
    (h : process_commands c.cmds [d] = some b) : b = [] ∨ ∃ u, b = [u] := by
  cases c with
  | plain k =>
    have he : process_commands (Comp.cmds (.plain k)) [d]
        = some (go_through_dict_key ⟨k⟩ [d]) := rfl
    rw [he] at h
    injection h with h2
    rcases go_dict_key_single_cases ⟨k⟩ d with hc | ⟨u, hc⟩
    · exact Or.inl (by rw [← h2, hc])
    · exact Or.inr ⟨u, by rw [← h2, hc]⟩
  | idx k i =>
    have he : process_commands (Comp.cmds (.idx k i)) [d]
        = match go_through_list_index i (go_through_dict_key ⟨k⟩ [d]) with
          | some b2 => some b2
          | none => none := rfl
    rw [he] at h
    rcases go_dict_key_single_cases ⟨k⟩ d with hc | ⟨u, hc⟩
    · rw [hc] at h
      rw [show go_through_list_index i ([] : List Value) = some [] from rfl] at h
      injection h with h2
      exact Or.inl h2.symm
    · rw [hc] at h
      cases hli : go_through_list_index i [u] with
      | none => rw [hli] at h; cases h
      | some b2 =>
        rw [hli] at h
        injection h with h2
        subst h2
        exact go_list_index_single_cases hli

theorem dget_dget2_steps : ∀ (segs : List Comp) (d v : Value),
    (∀ c ∈ segs, Comp.wfB c = true) →
    process_commands (segs.flatMap Comp.cmds) [d] = some [v] →
    dget2_loop (segs.map Comp.render) d = .ok v
  | [], d, v, _, h => by
      have h' : (some [d] : Option (List Value)) = some [v] := h
      injection h' with h2
      injection h2 with h3 _
      subst h3
      rfl
  | c :: rest, d, v, hwf, h => by
      rw [List.flatMap_cons, process_commands_append] at h
      cases hb : process_commands c.cmds [d] with
      | none => rw [hb] at h; cases h
      | some b =>
        rw [hb] at h
        have h' : process_commands (rest.flatMap Comp.cmds) b = some [v] := h
        rcases comp_cmds_single hb with hbe | ⟨u, hbu⟩
        · subst hbe
          rw [process_commands_nil_batch] at h'
          simp at h'
        · subst hbu
          have hstep := step_corr (hwf c (by simp)) hb
          have hrest := dget_dget2_steps rest u v (fun cx hcx => hwf cx (by simp [hcx])) h'
          rw [List.map_cons]
          show (match dget2_step (Comp.render c) d with
                | .ok d2 => dget2_loop (rest.map Comp.render) d2
                | .error e => .error e) = .ok v
          rw [hstep]
          exact hrest

/-! ### Path-level facts about rendered restricted-grammar paths -/

theorem comp_cmds_shape (c : Comp) : ∀ x ∈ c.cmds,
    (∃ k, x = PathCommand.throughDictKey k) ∨
    (∃ i, x = PathCommand.throughListIndexed i) := by
  cases c with
  | plain k =>
    intro x hx
    rw [Comp.cmds, List.mem_singleton] at hx
    exact Or.inl ⟨⟨k⟩, hx⟩
  | idx k i =>
    intro x hx
    rw [Comp.cmds, List.mem_cons, List.mem_singleton] at hx
    rcases hx with hx | hx
    · exact Or.inl ⟨⟨k⟩, hx⟩
    · exact Or.inr ⟨i, hx⟩

theorem flat_not_mem_comp_cmds (segs : List Comp) :
    PathCommand.throughListFlat ∉ segs.flatMap Comp.cmds ∧
    PathCommand.throughDictFlat ∉ segs.flatMap Comp.cmds := by
  constructor
  · intro hm
    obtain ⟨c, _, hx⟩ := List.mem_flatMap.mp hm
    rcases comp_cmds_shape c _ hx with ⟨k, hk⟩ | ⟨i, hi⟩
    · exact PathCommand.noConfusion hk
    · exact PathCommand.noConfusion hi
  · intro hm
    obtain ⟨c, _, hx⟩ := List.mem_flatMap.mp hm
    rcases comp_cmds_shape c _ hx with ⟨k, hk⟩ | ⟨i, hi⟩
    · exact PathCommand.noConfusion hk
    · exact PathCommand.noConfusion hi

theorem render_no_slash {c : Comp} (h : Comp.wfB c = true) : '/' ∉ Comp.render c := by
  intro hm
  cases c with
  | plain k => exact absurd (wordKeyB_all h '/' hm) (by decide)
  | idx k i =>
    rw [Comp.render] at hm
    have hm2 : '/' ∈ k ∨ '/' ∈ ('[' :: intToChars i ++ [']'] : List Char) := by
      simpa [List.mem_append, List.append_assoc] using hm
    rcases hm2 with hm2 | hm2
    · exact absurd (wordKeyB_all h '/' hm2) (by decide)
    · exact slash_not_mem_brtok i hm2

theorem stripSlash_cons {c : Char} (h : c ≠ '/') (r : List Char) :
    stripSlash (c :: r) = c :: r := by
  unfold stripSlash
  split
  · rename_i heq
    injection heq with h1
    exact absurd h1 h
  · rfl

theorem joinSlash_render_head {segs : List Comp} (hne : segs ≠ [])
    (hwf : ∀ c ∈ segs, Comp.wfB c = true) :
    ∃ ch s2, joinSlash (segs.map Comp.render) = ch :: s2 ∧ isWordChar ch = true := by
  cases segs with
  | nil => exact absurd rfl hne
  | cons c0 cr =>
    have hw : wordKeyB c0.key = true := by
      have := hwf c0 (by simp)
      rw [Comp.wfB] at this
      exact this
    obtain ⟨ch, ktl, hk⟩ : ∃ ch ktl, c0.key = ch :: ktl := by
      cases hkk : c0.key with
      | nil => exact absurd hkk (wordKeyB_ne_nil hw)
      | cons a b => exact ⟨a, b, rfl⟩
    have hch : isWordChar ch = true := wordKeyB_all hw ch (by rw [hk]; simp)
    obtain ⟨u, hu⟩ : ∃ u, joinSlash ((c0 :: cr).map Comp.render) = Comp.render c0 ++ u := by
      cases cr with
      | nil => exact ⟨[], by simp [joinSlash]⟩
      | cons c1 cr1 =>
        exact ⟨'/' :: joinSlash ((c1 :: cr1).map Comp.render), by
          rw [List.map_cons, joinSlash_cons_ne (by simp)]⟩
    obtain ⟨s, hs⟩ : ∃ s, Comp.render c0 = ch :: s := by
      cases c0 with
      | plain k =>
        rw [Comp.key] at hk
        exact ⟨ktl, by rw [Comp.render, hk]⟩
      | idx k i =>
        rw [Comp.key] at hk
        exact ⟨ktl ++ ('[' :: intToChars i ++ [']']), by rw [Comp.render, hk]; simp⟩
    exact ⟨ch, s ++ u, by rw [hu, hs]; simp, hch⟩

theorem splitSlash_render {segs : List Comp} (hne : segs ≠ [])
    (hwf : ∀ c ∈ segs, Comp.wfB c = true) :
    splitSlash (joinSlash (segs.map Comp.render)) = segs.map Comp.render := by
  have hmapne : segs.map Comp.render ≠ [] := by
    cases segs with
    | nil => exact absurd rfl hne
    | cons a b => simp
  exact splitSlash_join hmapne (fun tk htk => by
    obtain ⟨c, hc, hrc⟩ := List.mem_map.mp htk
    rw [← hrc]
    exact render_no_slash (hwf c hc))

theorem dget_eval {t : Value} {l : List Char} {cs : List PathCommand} {v D : Value}
    (hrp : read_path l = some cs)
    (hproc : process_commands cs [t] = some [v])
    (hnf1 : PathCommand.throughListFlat ∉ cs)
    (hnf2 : PathCommand.throughDictFlat ∉ cs) :
    dget t ⟨l⟩ D = some v := by
  show (match read_path l with
        | none => none
        | some commands =>
            match process_commands commands [t] with
            | none => none
            | some result_list =>
                match result_list with
                | [] => some D
                | r :: rs =>
                    if PathCommand.throughListFlat ∈ commands ∨
                       PathCommand.throughDictFlat ∈ commands then
                      some (Value.seq (r :: rs))
                    else some r) = some v
  rw [hrp]
  show (match process_commands cs [t] with
        | none => none
        | some result_list =>
            match result_list with
            | [] => some D
            | r :: rs =>
                if PathCommand.throughListFlat ∈ cs ∨
                   PathCommand.throughDictFlat ∈ cs then
                  some (Value.seq (r :: rs))
                else some r) = some v
  rw [hproc]
  show (if PathCommand.throughListFlat ∈ cs ∨ PathCommand.throughDictFlat ∈ cs then
          some (Value.seq [v])
        else some v) = some v
  rw [if_neg (not_or.mpr ⟨hnf1, hnf2⟩)]

theorem dget2_eval {t : Value} {l : List Char} {v D : Value}
    (hst : stripSlash l = l)
    (hloop : dget2_loop (splitSlash l) t = .ok v) :
    dget2 t ⟨l⟩ D = some v := by
  unfold dget2
  rw [show (String.mk l).data = l from rfl, hst, hloop]

/-! ### Claim C4: agreement of the two readers (corrected) -/

/-- C4 counterexample: the path `[1]` contains no wildcard and resolves in
the tree `[10, 20]` to the existing scalar `20` — `dget` returns it — but
the legacy reader has no bare-bracket segment form: `_get_repetition_index`
finds no `key[index]` match in `"[1]"`, so `dget2` subscripts the list with
the literal string `"[1]"`, which raises a caught-class error, and `dget2`
returns the default instead of `20`.  The readers therefore disagree on a
wildcard-free path that resolves to an existing scalar. -/
theorem C4_counterexample :
    dget (Value.seq [Value.int 10, Value.int 20]) "[1]" Value.null
      = some (Value.int 20) ∧
    dget2 (Value.seq [Value.int 10, Value.int 20]) "[1]" Value.null
      = some Value.null ∧
    Value.int 20 ≠ Value.null :=
  ⟨rfl, rfl, fun h => Value.noConfusion h⟩

/-- C4 amended: the agreement holds on the spec's segment grammar: for every
non-empty list of well-formed segments (`key` or `key[i]`, the key a
non-empty word-character string), every tree `t` and every scalar `v`, if
the compiled commands of the rendered path resolve `t` to the single value
`v`, then the fan-out reader and the legacy reader agree — both
`dget t p default` and `dget2 t p default` return `v`. -/
theorem C4_readers_agree (segs : List Comp) (hne : segs ≠ [])
    (hwf : ∀ c ∈ segs, Comp.wfB c = true) (t v D : Value)
    (_hsc : isScalar v = true)
    (hres : process_commands (segs.flatMap Comp.cmds) [t] = some [v]) :
    dget t ⟨joinSlash (segs.map Comp.render)⟩ D = some v ∧
    dget2 t ⟨joinSlash (segs.map Comp.render)⟩ D = some v := by
  have hrp := read_path_render hne hwf
  have hnf := flat_not_mem_comp_cmds segs
  refine ⟨dget_eval hrp hres hnf.1 hnf.2, ?_⟩
  obtain ⟨ch, s2, hj, hch⟩ := joinSlash_render_head hne hwf
  have hst : stripSlash (joinSlash (segs.map Comp.render))
      = joinSlash (segs.map Comp.render) := by
    rw [hj]
    exact stripSlash_cons (isWordChar_ne hch).1 s2
  exact dget2_eval hst (by
    rw [splitSlash_render hne hwf]
    exact dget_dget2_steps segs t v hwf hres)

/-- Witness for the amended C4: the path `a/b[0]` in `{"a": {"b": [7]}}`
resolves to the scalar `7` and both readers return it. -/
theorem C4_readers_agree_witness :
    dget (Value.map [("a", Value.map [("b", Value.seq [Value.int 7])])])
        ⟨joinSlash ([Comp.plain ['a'], Comp.idx ['b'] 0].map Comp.render)⟩ Value.null
      = some (Value.int 7) ∧
    dget2 (Value.map [("a", Value.map [("b", Value.seq [Value.int 7])])])
        ⟨joinSlash ([Comp.plain ['a'], Comp.idx ['b'] 0].map Comp.render)⟩ Value.null
      = some (Value.int 7) :=
  C4_readers_agree [Comp.plain ['a'], Comp.idx ['b'] 0] (by simp) (by decide)
    (Value.map [("a", Value.map [("b", Value.seq [Value.int 7])])])
    (Value.int 7) Value.null (by decide) rfl

/-! ### Write/read round-trip machinery (claim C5) -/

theorem comp_eval_plain {k : List Char} {es : List (String × Value)} {v : Value}
    (h : assocGet es ⟨k⟩ = some v) :
    process_commands (Comp.cmds (.plain k)) [.map es] = some [v] := by
  show some (go_through_dict_key ⟨k⟩ [.map es]) = some [v]
  rw [go_dict_key_single_map, h]

theorem comp_eval_idx {k : List Char} {i : Int} {es : List (String × Value)}
    {l : List Value} {v : Value}
    (h1 : assocGet es ⟨k⟩ = some (.seq l))
    (hg : (l.length : Int) > i)
    (h2 : pyIndex l i = some v) :
    process_commands (Comp.cmds (.idx k i)) [.map es] = some [v] := by
  have hd : go_through_dict_key ⟨k⟩ [.map es] = [.seq l] := by
    rw [go_dict_key_single_map, h1]
  have hli : go_through_list_index i [Value.seq l] = some [v] := by
    simp [go_through_list_index, hg, h2]
  show (match go_through_list_index i (go_through_dict_key ⟨k⟩ [.map es]) with
        | some b => some b
        | none => none) = some [v]
  rw [hd, hli]

theorem process_comp_cons {c : Comp} {segs2 : List Comp} {t u v : Value}
    (h1 : process_commands c.cmds [t] = some [u])
    (h2 : process_commands (segs2.flatMap Comp.cmds) [u] = some [v]) :
    process_commands ((c :: segs2).flatMap Comp.cmds) [t] = some [v] := by
  rw [List.flatMap_cons, process_commands_append, h1]
  exact h2

theorem pyOK_length_ne {l : List Value} {i : Int} (h : pyOK l i) :
    ¬((l.length : Int) = i) := by
  rcases h with ⟨h1, h2⟩ | ⟨h1, h2⟩ <;> omega

theorem dset_go_single (s : List Char) (d v : Value) :
    dset_go [s] d v = dset_last s d v := rfl

theorem dset_last_plain {k : List Char} (hw : wordKeyB k = true)
    (es : List (String × Value)) (v : Value) :
    dset_last k (.map es) v = some (.map (assocSet es ⟨k⟩ v)) := by
  unfold dset_last
  rw [rep_of_word hw]

theorem dset_last_idx_seq {k : List Char} (hw : wordKeyB k = true) {i : Int}
    {es : List (String × Value)} {l : List Value}
    (hg : assocGet es ⟨k⟩ = some (.seq l)) (hne2 : ¬((l.length : Int) = i))
    {v : Value} {l2 : List Value} (hset : pySet l i v = some l2) :
    dset_last (Comp.render (.idx k i)) (.map es) v
      = some (.map (assocSet es ⟨k⟩ (.seq l2))) := by
  have hr : Comp.render (.idx k i) = k ++ ('[' :: intToChars i ++ [']']) := by
    rw [Comp.render, List.append_assoc]
  rw [hr]
  unfold dset_last
  rw [rep_of_render_idx hw i]
  show (match assocGet es ⟨k⟩ with
        | none => some (Value.map (assocSet es ⟨k⟩ (.seq [v])))
        | some (.seq l3) =>
            if (l3.length : Int) = i then
              some (Value.map (assocSet es ⟨k⟩ (.seq (l3 ++ [v]))))
            else
              match pySet l3 i v with
              | some l4 => some (Value.map (assocSet es ⟨k⟩ (.seq l4)))
              | none => none
        | some _ => none) = some (Value.map (assocSet es ⟨k⟩ (.seq l2)))
  rw [hg]
  show (if (l.length : Int) = i then
          some (Value.map (assocSet es ⟨k⟩ (.seq (l ++ [v]))))
        else
          match pySet l i v with
          | some l4 => some (Value.map (assocSet es ⟨k⟩ (.seq l4)))
          | none => none) = some (Value.map (assocSet es ⟨k⟩ (.seq l2)))
  rw [if_neg hne2, hset]

theorem dset_go_cons2 (seg s2 : List Char) (rest : List (List Char))
    (data value : Value) :
    dset_go (seg :: s2 :: rest) data value =
      match get_repetition_index seg with
      | .error _ => none
      | .ok none =>
          match data with
          | .map es =>
              match dset_go (s2 :: rest) ((assocGet es ⟨seg⟩).getD (.map [])) value with
              | some c2 => some (.map (assocSet es ⟨seg⟩ c2))
              | none => none
          | _ => none
      | .ok (some (k, i)) =>
          match data with
          | .map es =>
              match
                match assocGet es ⟨k⟩ with
                | none => some [Value.map []]
                | some (.seq l) => some (if (l.length : Int) = i then l ++ [Value.map []] else l)
                | some _ => none
              with
              | some l1 =>
                  match pyIndex l1 i with
                  | some e =>
                      match dset_go (s2 :: rest) e value with
                      | some e2 =>
                          match pySet l1 i e2 with
                          | some l2 => some (.map (assocSet es ⟨k⟩ (.seq l2)))
                          | none => none
                      | none => none
                  | none => none
              | none => none
          | _ => none := rfl

theorem dset_go_plain_cons {k : List Char} (hw : wordKeyB k = true)
    (s2 : List Char) (rest : List (List Char)) {es : List (String × Value)} {u : Value}
    (hg : assocGet es ⟨k⟩ = some u) {v u2 : Value}
    (hrec : dset_go (s2 :: rest) u v = some u2) :
    dset_go (k :: s2 :: rest) (.map es) v = some (.map (assocSet es ⟨k⟩ u2)) := by
  rw [dset_go_cons2, rep_of_word hw]
  show (match dset_go (s2 :: rest) ((assocGet es ⟨k⟩).getD (.map [])) v with
        | some c2 => some (Value.map (assocSet es ⟨k⟩ c2))
        | none => none) = some (Value.map (assocSet es ⟨k⟩ u2))
  rw [hg]
  show (match dset_go (s2 :: rest) u v with
        | some c2 => some (Value.map (assocSet es ⟨k⟩ c2))
        | none => none) = some (Value.map (assocSet es ⟨k⟩ u2))
  rw [hrec]

theorem dset_go_idx_cons {k : List Char} (hw : wordKeyB k = true) {i : Int}
    (s2 : List Char) (rest : List (List Char)) {es : List (String × Value)}
    {l : List Value}
    (hg : assocGet es ⟨k⟩ = some (.seq l)) (hne2 : ¬((l.length : Int) = i))
    {e : Value} (hpi : pyIndex l i = some e)
    {v e2 : Value} (hrec : dset_go (s2 :: rest) e v = some e2)
    {l2 : List Value} (hset : pySet l i e2 = some l2) :
    dset_go (Comp.render (.idx k i) :: s2 :: rest) (.map es) v
      = some (.map (assocSet es ⟨k⟩ (.seq l2))) := by
  have hr : Comp.render (.idx k i) = k ++ ('[' :: intToChars i ++ [']']) := by
    rw [Comp.render, List.append_assoc]
  rw [hr, dset_go_cons2, rep_of_render_idx hw i]
  show (match
          match assocGet es ⟨k⟩ with
          | none => some [Value.map []]
          | some (.seq l3) => some (if (l3.length : Int) = i then l3 ++ [Value.map []] else l3)
          | some _ => none
        with
        | some l1 =>
            match pyIndex l1 i with
            | some e3 =>
                match dset_go (s2 :: rest) e3 v with
                | some e4 =>
                    match pySet l1 i e4 with
                    | some l4 => some (Value.map (assocSet es ⟨k⟩ (.seq l4)))
                    | none => none
                | none => none
            | none => none
        | none => none) = some (Value.map (assocSet es ⟨k⟩ (.seq l2)))
  rw [hg]
  show (match pyIndex (if (l.length : Int) = i then l ++ [Value.map []] else l) i with
        | some e3 =>
            match dset_go (s2 :: rest) e3 v with
            | some e4 =>
                match pySet (if (l.length : Int) = i then l ++ [Value.map []] else l) i e4 with
                | some l4 => some (Value.map (assocSet es ⟨k⟩ (.seq l4)))
                | none => none
            | none => none
        | none => none) = some (Value.map (assocSet es ⟨k⟩ (.seq l2)))
  rw [if_neg hne2, hpi]
  show (match dset_go (s2 :: rest) e v with
        | some e4 =>
            match pySet l i e4 with
            | some l4 => some (Value.map (assocSet es ⟨k⟩ (.seq l4)))
            | none => none
        | none => none) = some (Value.map (assocSet es ⟨k⟩ (.seq l2)))
  rw [hrec]
  show (match pySet l i e2 with
        | some l4 => some (Value.map (assocSet es ⟨k⟩ (.seq l4)))
        | none => none) = some (Value.map (assocSet es ⟨k⟩ (.seq l2)))
  rw [hset]

theorem dset_roundtrip_go : ∀ (segs : List Comp) (t w v : Value),
    (∀ c ∈ segs, Comp.wfB c = true) →
    process_commands (segs.flatMap Comp.cmds) [t] = some [w] →
    segs ≠ [] →
    ∃ t2, dset_go (segs.map Comp.render) t v = some t2 ∧
          process_commands (segs.flatMap Comp.cmds) [t2] = some [v]
  | [], _, _, _, _, _, hne => absurd rfl hne
  | [c], t, w, v, hwf, h, _ => by
      rw [List.flatMap_cons, process_commands_append] at h
      cases hb : process_commands c.cmds [t] with
      | none => rw [hb] at h; cases h
      | some b =>
        rw [hb] at h
        have h' : (some b : Option (List Value)) = some [w] := h
        injection h' with h2
        subst h2
        cases c with
        | plain k =>
          have hw : wordKeyB k = true := by
            have := hwf (.plain k) (by simp)
            rw [Comp.wfB] at this
            exact this
          obtain ⟨es, ht, hg⟩ := comp_step_plain hb
          subst ht
          refine ⟨.map (assocSet es ⟨k⟩ v), ?_, ?_⟩
          · rw [List.map_cons, List.map_nil, dset_go_single]
            exact dset_last_plain hw es v
          · exact process_comp_cons (comp_eval_plain (assocGet_assocSet_self es ⟨k⟩ v)) rfl
        | idx k i =>
          have hw : wordKeyB k = true := by
            have := hwf (.idx k i) (by simp)
            rw [Comp.wfB] at this
            exact this
          obtain ⟨es, l, ht, hg, hp⟩ := comp_step_idx hb
          subst ht
          have hok := pyOK_of_pyIndex_some hp
          have hlenne : ¬((l.length : Int) = i) := pyOK_length_ne hok
          obtain ⟨hlt, hpi, hps⟩ := pyIndex_some_of_ok hok
          have hok2 : pyOK (l.set (pyResolve l.length i) v) i :=
            pyOK_same_length (by simp) hok
          obtain ⟨hlt2, hpi2, _⟩ := pyIndex_some_of_ok hok2
          have hlen2 : (l.set (pyResolve l.length i) v).length = l.length := by simp
          have hpi2v : pyIndex (l.set (pyResolve l.length i) v) i = some v := by
            rw [hpi2, hlen2]
            exact List.get?_set_eq_of_lt _ hlt
          have hguard2 : ((l.set (pyResolve l.length i) v).length : Int) > i := by
            rw [hlen2]
            exact pyIndex_guard hp
          refine ⟨.map (assocSet es ⟨k⟩ (.seq (l.set (pyResolve l.length i) v))), ?_, ?_⟩
          · rw [List.map_cons, List.map_nil, dset_go_single]
            exact dset_last_idx_seq hw hg hlenne (hps v)
          · exact process_comp_cons
              (comp_eval_idx (assocGet_assocSet_self es ⟨k⟩ _) hguard2 hpi2v) rfl
  | c :: c2 :: crest, t, w, v, hwf, h, _ => by
      rw [List.flatMap_cons, process_commands_append] at h
      cases hb : process_commands c.cmds [t] with
      | none => rw [hb] at h; cases h
      | some b =>
        rw [hb] at h
        have h' : process_commands ((c2 :: crest).flatMap Comp.cmds) b = some [w] := h
        rcases comp_cmds_single hb with hbe | ⟨u, hbu⟩
        · subst hbe
          rw [process_commands_nil_batch] at h'
          simp at h'
        · subst hbu
          have hwf2 : ∀ x ∈ c2 :: crest, Comp.wfB x = true :=
            fun x hx => hwf x (by simp [hx])
          obtain ⟨u2, hset2, hread2⟩ :=
            dset_roundtrip_go (c2 :: crest) u w v hwf2 h' (by simp)
          cases c with
          | plain k =>
            have hw : wordKeyB k = true := by
              have := hwf (.plain k) (by simp)
              rw [Comp.wfB] at this
              exact this
            obtain ⟨es, ht, hg⟩ := comp_step_plain hb
            subst ht
            refine ⟨.map (assocSet es ⟨k⟩ u2), ?_, ?_⟩
            · rw [List.map_cons, List.map_cons]
              exact dset_go_plain_cons hw (Comp.render c2) (crest.map Comp.render) hg
                (by rw [← List.map_cons]; exact hset2)
            · exact process_comp_cons
                (comp_eval_plain (assocGet_assocSet_self es ⟨k⟩ u2)) hread2
          | idx k i =>
            have hw : wordKeyB k = true := by
              have := hwf (.idx k i) (by simp)
              rw [Comp.wfB] at this
              exact this
            obtain ⟨es, l, ht, hg, hp⟩ := comp_step_idx hb
            subst ht
            have hok := pyOK_of_pyIndex_some hp
            have hlenne : ¬((l.length : Int) = i) := pyOK_length_ne hok
            obtain ⟨hlt, hpi, hps⟩ := pyIndex_some_of_ok hok
            have hok2 : pyOK (l.set (pyResolve l.length i) u2) i :=
              pyOK_same_length (by simp) hok
            obtain ⟨hlt2, hpi2, _⟩ := pyIndex_some_of_ok hok2
            have hlen2 : (l.set (pyResolve l.length i) u2).length = l.length := by simp
            have hpi2v : pyIndex (l.set (pyResolve l.length i) u2) i = some u2 := by
              rw [hpi2, hlen2]
              exact List.get?_set_eq_of_lt _ hlt
            have hguard2 : ((l.set (pyResolve l.length i) u2).length : Int) > i := by
              rw [hlen2]
              exact pyIndex_guard hp
            refine ⟨.map (assocSet es ⟨k⟩ (.seq (l.set (pyResolve l.length i) u2))), ?_, ?_⟩
            · rw [List.map_cons, List.map_cons]
              exact dset_go_idx_cons hw (Comp.render c2) (crest.map Comp.render) hg hlenne hp
                (by rw [← List.map_cons]; exact hset2) (hps u2)
            · exact process_comp_cons
                (comp_eval_idx (assocGet_assocSet_self es ⟨k⟩ _) hguard2 hpi2v) hread2

/-! ### Claim C5: write/read round-trip (corrected) -/

/-- C5 counterexample: in `t = {"k": [0, [5, 6, 7]]}` the path `k[1]x[2]`
resolves to the leaf `7` (the compiler turns it into
`DictKey k / ListIndex 1 / ListIndex 2`; the token `[1]x` compiles to
`ListIndex 1` by prefix match, the key `x` is never consulted), but `dset`
parses the single segment through `_REPETITION_REGEX.search`, which finds
`k[1]` and ignores the trailing `x[2]`: the write lands at `t["k"][1]`,
overwriting the whole inner list.  Reading the path back afterwards finds
the scalar `9` where `ListIndex 2` expects a sequence, the branch is
dropped, and `dget` returns the default instead of the written value. -/
theorem C5_counterexample :
    dget (Value.map [("k", Value.seq [Value.int 0,
        Value.seq [Value.int 5, Value.int 6, Value.int 7]])]) "k[1]x[2]" Value.null
      = some (Value.int 7) ∧
    dset (Value.map [("k", Value.seq [Value.int 0,
        Value.seq [Value.int 5, Value.int 6, Value.int 7]])]) "k[1]x[2]" (Value.int 9)
      = some (Value.map [("k", Value.seq [Value.int 0, Value.int 9])]) ∧
    dget (Value.map [("k", Value.seq [Value.int 0, Value.int 9])]) "k[1]x[2]" Value.null
      = some Value.null ∧
    Value.null ≠ Value.int 9 :=
  ⟨rfl, rfl, rfl, fun h => Value.noConfusion h⟩

/-- C5 amended: the round-trip holds on the spec's segment grammar: for
every non-empty list of well-formed segments (`key` or `key[i]`, keys
non-empty word-character strings), every tree `t` whose rendered path
resolves to an existing value `w`, and every value `v`, the write
`dset t p v` succeeds and the subsequent `dget t p default` on the updated
tree returns `v`. -/
theorem C5_roundtrip_amended (segs : List Comp) (hne : segs ≠ [])
    (hwf : ∀ c ∈ segs, Comp.wfB c = true) (t w v D : Value)
    (hres : process_commands (segs.flatMap Comp.cmds) [t] = some [w]) :
    ∃ t2, dset t ⟨joinSlash (segs.map Comp.render)⟩ v = some t2 ∧
          dget t2 ⟨joinSlash (segs.map Comp.render)⟩ D = some v := by
  obtain ⟨t2, hs, hr⟩ := dset_roundtrip_go segs t w v hwf hres hne
  refine ⟨t2, ?_, ?_⟩
  · unfold dset
    rw [show (String.mk (joinSlash (segs.map Comp.render))).data
        = joinSlash (segs.map Comp.render) from rfl]
    obtain ⟨ch, s2, hj, hch⟩ := joinSlash_render_head hne hwf
    rw [hj, stripSlash_cons (isWordChar_ne hch).1, ← hj, splitSlash_render hne hwf]
    exact hs
  · exact dget_eval (read_path_render hne hwf) hr
      (flat_not_mem_comp_cmds segs).1 (flat_not_mem_comp_cmds segs).2

/-- Witness for the amended C5: writing `9` at `a/b[1]` in
`{"a": {"b": [0, 3]}}` (the path resolves to the leaf `3`) and reading the
path back yields `9`. -/
theorem C5_roundtrip_amended_witness :
    ∃ t2, dset (Value.map [("a", Value.map [("b", Value.seq [Value.int 0, Value.int 3])])])
        ⟨joinSlash ([Comp.plain ['a'], Comp.idx ['b'] 1].map Comp.render)⟩ (Value.int 9)
        = some t2 ∧
      dget t2 ⟨joinSlash ([Comp.plain ['a'], Comp.idx ['b'] 1].map Comp.render)⟩ Value.null
        = some (Value.int 9) :=
  C5_roundtrip_amended [Comp.plain ['a'], Comp.idx ['b'] 1] (by simp) (by decide)
    (Value.map [("a", Value.map [("b", Value.seq [Value.int 0, Value.int 3])])])
    (Value.int 3) (Value.int 9) Value.null rfl

/-! ### Further Python list-write laws (claim C9) -/

theorem pySet_some_inv {l : List Value} {i : Int} {w : Value} {l2 : List Value}
    (h : pySet l i w = some l2) :
    pyOK l i ∧ l2 = l.set (pyResolve l.length i) w := by
  unfold pySet at h
  split at h
  · rename_i h1
    split at h
    · rename_i h2
      injection h with h3
      refine ⟨Or.inl ⟨h1, h2⟩, ?_⟩
      rw [← h3]
      unfold pyResolve
      rw [if_pos h1]
    · cases h
  · rename_i h1
    split at h
    · rename_i h2
      injection h with h3
      refine ⟨Or.inr ⟨by omega, h2⟩, ?_⟩
      rw [← h3]
      unfold pyResolve
      rw [if_neg h1]
    · cases h

theorem set_append_last (l : List Value) (x w : Value) :
    (l ++ [x]).set l.length w = l ++ [w] := by
  induction l with
  | nil => rfl
  | cons a t ih =>
    show a :: (t ++ [x]).set t.length w = a :: (t ++ [w])
    rw [ih]

theorem pyIndex_append_length (l : List Value) (x : Value) :
    pyIndex (l ++ [x]) (l.length : Int) = some x := by
  unfold pyIndex
  rw [if_pos (by omega), show ((l.length : Int)).toNat = l.length from by omega]
  exact List.get?_concat_length l x

theorem pySet_append_length (l : List Value) (x w : Value) :
    pySet (l ++ [x]) (l.length : Int) w = some (l ++ [w]) := by
  have hlen : (l ++ [x]).length = l.length + 1 := by simp
  unfold pySet
  rw [if_pos (by omega)]
  rw [if_pos (by omega)]
  rw [show ((l.length : Int)).toNat = l.length from by omega]
  rw [set_append_last]

theorem pyIndex_singleton {x e : Value} {i : Int} (h : pyIndex [x] i = some e) :
    e = x := by
  have hok := pyOK_of_pyIndex_some h
  obtain ⟨hlt, hpi, _⟩ := pyIndex_some_of_ok hok
  have h1 : ([x] : List Value).length = 1 := rfl
  have hr0 : pyResolve ([x] : List Value).length i = 0 := by
    rw [h1] at hlt ⊢
    omega
  rw [hpi, hr0] at h
  injection h with h2
  exact h2.symm

theorem pyOK_one {x : Value} {i : Int} (h : pyOK [x] i) : i = 0 ∨ i = -1 := by
  have h1 : ([x] : List Value).length = 1 := rfl
  unfold pyOK at h
  rw [h1] at h
  rcases h with ⟨ha, hb⟩ | ⟨ha, hb⟩
  · left
    omega
  · right
    omega

theorem pyIndex_one {x : Value} {i : Int} (h : i = 0 ∨ i = -1) :
    pyIndex [x] i = some x := by
  rcases h with h | h <;> subst h <;> rfl

theorem pySet_singleton_self {x w : Value} {i : Int} {l2 : List Value}
    (h : pySet [x] i w = some l2) : l2 = [w] := by
  obtain ⟨hok, hl2⟩ := pySet_some_inv h
  rcases pyOK_one hok with hi | hi <;> subst hi <;>
    · rw [hl2]
      rfl

theorem lastSegOKB_cons2 (a b : List Char) (r : List (List Char)) :
    lastSegOKB (a :: b :: r) = lastSegOKB (b :: r) := by
  unfold lastSegOKB
  rw [List.getLast?_cons_cons]

theorem lastSegOKB_single_rep {seg k : List Char} {i : Int}
    (h : lastSegOKB [seg] = true)
    (hrep : get_repetition_index seg = .ok (some (k, i))) : i ≠ 1 := by
  have h2 : (match get_repetition_index seg with
             | Except.ok (some (_, j)) => j != 1
             | _ => true) = true := h
  rw [hrep] at h2
  simpa using h2

theorem dset_last_none_eq {seg : List Char}
    (hrep : get_repetition_index seg = .ok none)
    (es : List (String × Value)) (v : Value) :
    dset_last seg (.map es) v = some (.map (assocSet es ⟨seg⟩ v)) := by
  unfold dset_last
  rw [hrep]

theorem dset_last_rep_eq {seg k : List Char} {i : Int}
    (hrep : get_repetition_index seg = .ok (some (k, i)))
    (es : List (String × Value)) (v : Value) :
    dset_last seg (.map es) v =
      match assocGet es ⟨k⟩ with
      | none => some (Value.map (assocSet es ⟨k⟩ (.seq [v])))
      | some (.seq l) =>
          if (l.length : Int) = i then some (.map (assocSet es ⟨k⟩ (.seq (l ++ [v]))))
          else (pySet l i v).map (fun l2 => Value.map (assocSet es ⟨k⟩ (.seq l2)))
      | some _ => none := by
  unfold dset_last
  rw [hrep]
  show (match assocGet es ⟨k⟩ with
        | none => some (Value.map (assocSet es ⟨k⟩ (.seq [v])))
        | some (.seq l) =>
            if (l.length : Int) = i then some (Value.map (assocSet es ⟨k⟩ (.seq (l ++ [v]))))
            else
              match pySet l i v with
              | some l2 => some (Value.map (assocSet es ⟨k⟩ (.seq l2)))
              | none => none
        | some _ => none) = _
  cases assocGet es ⟨k⟩ with
  | none => rfl
  | some w =>
    cases w with
    | seq l =>
      show (if (l.length : Int) = i then some (Value.map (assocSet es ⟨k⟩ (.seq (l ++ [v]))))
            else
              match pySet l i v with
              | some l2 => some (Value.map (assocSet es ⟨k⟩ (.seq l2)))
              | none => none) =
          (if (l.length : Int) = i then some (Value.map (assocSet es ⟨k⟩ (.seq (l ++ [v]))))
            else Option.map (fun l2 => Value.map (assocSet es ⟨k⟩ (.seq l2))) (pySet l i v))
      by_cases hlen : (l.length : Int) = i
      · rw [if_pos hlen, if_pos hlen]
      · rw [if_neg hlen, if_neg hlen]
        cases pySet l i v <;> rfl
    | null => rfl
    | bool b => rfl
    | int n => rfl
    | str s => rfl
    | map es2 => rfl

theorem dset_last_some_map {seg : List Char} {t v t1 : Value}
    (h : dset_last seg t v = some t1) : ∃ es, t = Value.map es := by
  unfold dset_last at h
  split at h
  · cases h
  · split at h
    · rename_i es
      exact ⟨es, rfl⟩
    · cases h
  · split at h
    · rename_i es
      exact ⟨es, rfl⟩
    · cases h

theorem dset_last_idem {seg : List Char} {t t1 t2 v : Value}
    (hok : lastSegOKB [seg] = true)
    (h1 : dset_last seg t v = some t1)
    (h2 : dset_last seg t1 v = some t2) : t2 = t1 := by
  obtain ⟨es, ht⟩ := dset_last_some_map h1
  subst ht
  cases hrep : get_repetition_index seg with
  | error e =>
    rw [show dset_last seg (.map es) v = none from by unfold dset_last; rw [hrep]] at h1
    cases h1
  | ok o =>
    cases o with
    | none =>
      rw [dset_last_none_eq hrep] at h1
      injection h1 with h1a
      subst h1a
      rw [dset_last_none_eq hrep] at h2
      injection h2 with h2a
      rw [← h2a, assocSet_assocSet_same]
    | some pr =>
      obtain ⟨k, i⟩ := pr
      have hine : i ≠ 1 := lastSegOKB_single_rep hok hrep
      rw [dset_last_rep_eq hrep] at h1
      cases hg : assocGet es ⟨k⟩ with
      | none =>
        rw [hg] at h1
        have h1' : some (Value.map (assocSet es ⟨k⟩ (.seq [v]))) = some t1 := h1
        injection h1' with h1a
        subst h1a
        rw [dset_last_rep_eq hrep, assocGet_assocSet_self] at h2
        have h2' : (if (([v] : List Value).length : Int) = i
              then some (Value.map (assocSet (assocSet es ⟨k⟩ (.seq [v])) ⟨k⟩
                (.seq ([v] ++ [v]))))
              else Option.map
                (fun l2 => Value.map (assocSet (assocSet es ⟨k⟩ (.seq [v])) ⟨k⟩ (.seq l2)))
                (pySet [v] i v)) = some t2 := h2
        rw [if_neg (by simp; omega)] at h2'
        obtain ⟨lw, hpsw, hfw⟩ := Option.map_eq_some'.mp h2'
        have hlw : lw = [v] := pySet_singleton_self hpsw
        subst hlw
        have hfw' : Value.map (assocSet (assocSet es ⟨k⟩ (.seq [v])) ⟨k⟩ (.seq [v])) = t2 := hfw
        rw [← hfw', assocSet_assocSet_same]
      | some w =>
        cases w with
        | seq l =>
          rw [hg] at h1
          have h1' : (if (l.length : Int) = i
                then some (Value.map (assocSet es ⟨k⟩ (.seq (l ++ [v]))))
                else Option.map (fun l2 => Value.map (assocSet es ⟨k⟩ (.seq l2)))
                  (pySet l i v)) = some t1 := h1
          by_cases hlen : (l.length : Int) = i
          · rw [if_pos hlen] at h1'
            injection h1' with h1a
            subst h1a
            rw [dset_last_rep_eq hrep, assocGet_assocSet_self] at h2
            have h2' : (if (((l ++ [v]) : List Value).length : Int) = i
                  then some (Value.map (assocSet (assocSet es ⟨k⟩ (.seq (l ++ [v]))) ⟨k⟩
                    (.seq ((l ++ [v]) ++ [v]))))
                  else Option.map
                    (fun l2 => Value.map (assocSet (assocSet es ⟨k⟩ (.seq (l ++ [v]))) ⟨k⟩
                      (.seq l2)))
                    (pySet (l ++ [v]) i v)) = some t2 := h2
            rw [if_neg (by simp; omega)] at h2'
            obtain ⟨lw, hpsw, hfw⟩ := Option.map_eq_some'.mp h2'
            have hps : pySet (l ++ [v]) i v = some (l ++ [v]) := by
              rw [← hlen]
              exact pySet_append_length l v v
            have hlw : lw = l ++ [v] := by
              rw [hps] at hpsw
              injection hpsw with hx
              exact hx.symm
            subst hlw
            have hfw' : Value.map (assocSet (assocSet es ⟨k⟩ (.seq (l ++ [v]))) ⟨k⟩
                (.seq (l ++ [v]))) = t2 := hfw
            rw [← hfw', assocSet_assocSet_same]
          · rw [if_neg hlen] at h1'
            obtain ⟨la, hps1, hf1⟩ := Option.map_eq_some'.mp h1'
            have hf1' : Value.map (assocSet es ⟨k⟩ (.seq la)) = t1 := hf1
            subst hf1'
            obtain ⟨hokL, hla⟩ := pySet_some_inv hps1
            have hlenla : la.length = l.length := by rw [hla]; simp
            rw [dset_last_rep_eq hrep, assocGet_assocSet_self] at h2
            have h2' : (if ((la : List Value).length : Int) = i
                  then some (Value.map (assocSet (assocSet es ⟨k⟩ (.seq la)) ⟨k⟩
                    (.seq (la ++ [v]))))
                  else Option.map
                    (fun lz => Value.map (assocSet (assocSet es ⟨k⟩ (.seq la)) ⟨k⟩ (.seq lz)))
                    (pySet la i v)) = some t2 := h2
            rw [if_neg (by rw [hlenla]; exact hlen)] at h2'
            obtain ⟨lb, hps2, hf2⟩ := Option.map_eq_some'.mp h2'
            have hlb : lb = la := by
              obtain ⟨hokL2, hlbe⟩ := pySet_some_inv hps2
              rw [hlbe, hlenla, hla, List.set_set, ← hla]
            rw [hlb] at hf2
            have hf2' : Value.map (assocSet (assocSet es ⟨k⟩ (.seq la)) ⟨k⟩ (.seq la)) = t2 := hf2
            rw [← hf2', assocSet_assocSet_same]
        | null =>
          rw [hg] at h1
          exact Option.noConfusion h1
        | bool b =>
          rw [hg] at h1
          exact Option.noConfusion h1
        | int n =>
          rw [hg] at h1
          exact Option.noConfusion h1
        | str s =>
          rw [hg] at h1
          exact Option.noConfusion h1
        | map es2 =>
          rw [hg] at h1
          exact Option.noConfusion h1

theorem dset_go_cons2_some_map {seg s2 : List Char} {rest : List (List Char)}
    {t v t1 : Value}
    (h : dset_go (seg :: s2 :: rest) t v = some t1) : ∃ es, t = Value.map es := by
  rw [dset_go_cons2] at h
  split at h
  · cases h
  · split at h
    · rename_i es
      exact ⟨es, rfl⟩
    · cases h
  · split at h
    · rename_i es
      exact ⟨es, rfl⟩
    · cases h

theorem dset_go_plain_eq {seg : List Char}
    (hrep : get_repetition_index seg = .ok none)
    (s2 : List Char) (rest : List (List Char)) (es : List (String × Value)) (v : Value) :
    dset_go (seg :: s2 :: rest) (.map es) v =
      Option.map (fun c2 => Value.map (assocSet es ⟨seg⟩ c2))
        (dset_go (s2 :: rest) ((assocGet es ⟨seg⟩).getD (.map [])) v) := by
  rw [dset_go_cons2, hrep]
  show (match dset_go (s2 :: rest) ((assocGet es ⟨seg⟩).getD (.map [])) v with
        | some c2 => some (Value.map (assocSet es ⟨seg⟩ c2))
        | none => none) = _
  cases dset_go (s2 :: rest) ((assocGet es ⟨seg⟩).getD (.map [])) v <;> rfl

theorem dset_go_rep_eq {seg k : List Char} {i : Int}
    (hrep : get_repetition_index seg = .ok (some (k, i)))
    (s2 : List Char) (rest : List (List Char)) (es : List (String × Value)) (v : Value) :
    dset_go (seg :: s2 :: rest) (.map es) v =
      match
        match assocGet es ⟨k⟩ with
        | none => some [Value.map []]
        | some (.seq l) => some (if (l.length : Int) = i then l ++ [Value.map []] else l)
        | some _ => none
      with
      | some l1 =>
          match pyIndex l1 i with
          | some e =>
              match dset_go (s2 :: rest) e v with
              | some e2 =>
                  match pySet l1 i e2 with
                  | some l2 => some (Value.map (assocSet es ⟨k⟩ (.seq l2)))
                  | none => none
              | none => none
          | none => none
      | none => none := by
  rw [dset_go_cons2, hrep]

theorem dset_go_idem : ∀ (segs : List (List Char)) (t t1 t2 v : Value),
    lastSegOKB segs = true →
    dset_go segs t v = some t1 →
    dset_go segs t1 v = some t2 →
    t2 = t1
  | [], _, _, _, _, _, h1, _ => by cases h1
  | [seg], t, t1, t2, v, hok, h1, h2 => by
      rw [dset_go_single] at h1 h2
      exact dset_last_idem hok h1 h2
  | seg :: s2 :: rest, t, t1, t2, v, hok, h1, h2 => by
      have hok2 : lastSegOKB (s2 :: rest) = true := by
        rw [← lastSegOKB_cons2 seg]
        exact hok
      obtain ⟨es, ht⟩ := dset_go_cons2_some_map h1
      subst ht
      cases hrep : get_repetition_index seg with
      | error e =>
        rw [show dset_go (seg :: s2 :: rest) (.map es) v = none from by
          rw [dset_go_cons2, hrep]] at h1
        cases h1
      | ok o =>
        cases o with
        | none =>
          rw [dset_go_plain_eq hrep] at h1
          obtain ⟨c2, hc1, hf1⟩ := Option.map_eq_some'.mp h1
          have hf1' : Value.map (assocSet es ⟨seg⟩ c2) = t1 := hf1
          subst hf1'
          rw [dset_go_plain_eq hrep] at h2
          have hgd : (assocGet (assocSet es ⟨seg⟩ c2) ⟨seg⟩).getD (.map []) = c2 := by
            rw [assocGet_assocSet_self]
            rfl
          rw [hgd] at h2
          obtain ⟨c3, hc2, hf2⟩ := Option.map_eq_some'.mp h2
          have hcc : c3 = c2 := dset_go_idem (s2 :: rest) _ c2 c3 v hok2 hc1 hc2
          rw [hcc] at hf2
          have hf2' : Value.map (assocSet (assocSet es ⟨seg⟩ c2) ⟨seg⟩ c2) = t2 := hf2
          rw [← hf2', assocSet_assocSet_same]
        | some pr =>
          obtain ⟨k, i⟩ := pr
          rw [dset_go_rep_eq hrep] at h1
          cases hg : assocGet es ⟨k⟩ with
          | none =>
            rw [hg] at h1
            have h1a : (match pyIndex [Value.map []] i with
                        | some e =>
                            match dset_go (s2 :: rest) e v with
                            | some e2 =>
                                match pySet [Value.map []] i e2 with
                                | some l2 => some (Value.map (assocSet es ⟨k⟩ (.seq l2)))
                                | none => none
                            | none => none
                        | none => none) = some t1 := h1
            cases hpi : pyIndex [Value.map []] i with
            | none => rw [hpi] at h1a; exact Option.noConfusion h1a
            | some e =>
              have he : e = Value.map [] := pyIndex_singleton hpi
              subst he
              rw [hpi] at h1a
              have h1b : (match dset_go (s2 :: rest) (Value.map []) v with
                          | some e2 =>
                              match pySet [Value.map []] i e2 with
                              | some l2 => some (Value.map (assocSet es ⟨k⟩ (.seq l2)))
                              | none => none
                          | none => none) = some t1 := h1a
              cases hd1 : dset_go (s2 :: rest) (Value.map []) v with
              | none => rw [hd1] at h1b; exact Option.noConfusion h1b
              | some e2 =>
                rw [hd1] at h1b
                have h1c : (match pySet [Value.map []] i e2 with
                            | some l2 => some (Value.map (assocSet es ⟨k⟩ (.seq l2)))
                            | none => none) = some t1 := h1b
                cases hps : pySet [Value.map []] i e2 with
                | none => rw [hps] at h1c; exact Option.noConfusion h1c
                | some l2 =>
                  rw [hps] at h1c
                  have hl2 : l2 = [e2] := pySet_singleton_self hps
                  subst hl2
                  have h1d : some (Value.map (assocSet es ⟨k⟩ (.seq [e2]))) = some t1 := h1c
                  injection h1d with h1e
                  subst h1e
                  have hi01 : i = 0 ∨ i = -1 := pyOK_one (pyOK_of_pyIndex_some hpi)
                  rw [dset_go_rep_eq hrep, assocGet_assocSet_self] at h2
                  have h2a : (match pyIndex
                        (if ((([e2] : List Value)).length : Int) = i
                         then [e2] ++ [Value.map []] else [e2]) i with
                      | some e =>
                          match dset_go (s2 :: rest) e v with
                          | some e3 =>
                              match pySet
                                  (if ((([e2] : List Value)).length : Int) = i
                                   then [e2] ++ [Value.map []] else [e2]) i e3 with
                              | some l2 => some (Value.map (assocSet
                                  (assocSet es ⟨k⟩ (.seq [e2])) ⟨k⟩ (.seq l2)))
                              | none => none
                          | none => none
                      | none => none) = some t2 := h2
                  rw [if_neg (by simp; omega)] at h2a
                  rw [pyIndex_one hi01] at h2a
                  have h2b : (match dset_go (s2 :: rest) e2 v with
                              | some e3 =>
                                  match pySet [e2] i e3 with
                                  | some l2 => some (Value.map (assocSet
                                      (assocSet es ⟨k⟩ (.seq [e2])) ⟨k⟩ (.seq l2)))
                                  | none => none
                              | none => none) = some t2 := h2a
                  cases hd2 : dset_go (s2 :: rest) e2 v with
                  | none => rw [hd2] at h2b; exact Option.noConfusion h2b
                  | some e3 =>
                    rw [hd2] at h2b
                    have he3 : e3 = e2 := dset_go_idem (s2 :: rest) _ e2 e3 v hok2 hd1 hd2
                    rw [he3] at h2b
                    have h2c : (match pySet [e2] i e2 with
                                | some l2 => some (Value.map (assocSet
                                    (assocSet es ⟨k⟩ (.seq [e2])) ⟨k⟩ (.seq l2)))
                                | none => none) = some t2 := h2b
                    cases hps2 : pySet [e2] i e2 with
                    | none => rw [hps2] at h2c; exact Option.noConfusion h2c
                    | some l3 =>
                      rw [hps2] at h2c
                      have hl3 : l3 = [e2] := pySet_singleton_self hps2
                      subst hl3
                      have h2d : some (Value.map (assocSet (assocSet es ⟨k⟩ (.seq [e2])) ⟨k⟩
                          (.seq [e2]))) = some t2 := h2c
                      injection h2d with h2e
                      rw [← h2e, assocSet_assocSet_same]
          | some w =>
            cases w with
            | seq l =>
              rw [hg] at h1
              have h1a : (match pyIndex
                    (if ((l.length : Int) = i) then l ++ [Value.map []] else l) i with
                  | some e =>
                      match dset_go (s2 :: rest) e v with
                      | some e2 =>
                          match pySet
                              (if ((l.length : Int) = i) then l ++ [Value.map []] else l) i e2 with
                          | some l2 => some (Value.map (assocSet es ⟨k⟩ (.seq l2)))
                          | none => none
                      | none => none
                  | none => none) = some t1 := h1
              by_cases hlen : (l.length : Int) = i
              · rw [if_pos hlen] at h1a
                have hpiL : pyIndex (l ++ [Value.map []]) i = some (Value.map []) := by
                  rw [← hlen]
                  exact pyIndex_append_length l (Value.map [])
                rw [hpiL] at h1a
                have h1b : (match dset_go (s2 :: rest) (Value.map []) v with
                            | some e2 =>
                                match pySet (l ++ [Value.map []]) i e2 with
                                | some l2 => some (Value.map (assocSet es ⟨k⟩ (.seq l2)))
                                | none => none
                            | none => none) = some t1 := h1a
                cases hd1 : dset_go (s2 :: rest) (Value.map []) v with
                | none => rw [hd1] at h1b; exact Option.noConfusion h1b
                | some e2 =>
                  rw [hd1] at h1b
                  have hpsL : pySet (l ++ [Value.map []]) i e2 = some (l ++ [e2]) := by
                    rw [← hlen]
                    exact pySet_append_length l (Value.map []) e2
                  have h1c : (match pySet (l ++ [Value.map []]) i e2 with
                              | some l2 => some (Value.map (assocSet es ⟨k⟩ (.seq l2)))
                              | none => none) = some t1 := h1b
                  rw [hpsL] at h1c
                  have h1d : some (Value.map (assocSet es ⟨k⟩ (.seq (l ++ [e2])))) = some t1 := h1c
                  injection h1d with h1e
                  subst h1e
                  rw [dset_go_rep_eq hrep, assocGet_assocSet_self] at h2
                  have hlen2 : ¬((((l ++ [e2]) : List Value)).length : Int) = i := by
                    simp
                    omega
                  have h2a : (match pyIndex (if ((((l ++ [e2]) : List Value)).length : Int) = i
                         then (l ++ [e2]) ++ [Value.map []] else (l ++ [e2])) i with
                      | some e =>
                          match dset_go (s2 :: rest) e v with
                          | some e3 =>
                              match pySet (if ((((l ++ [e2]) : List Value)).length : Int) = i
                                     then (l ++ [e2]) ++ [Value.map []] else (l ++ [e2])) i e3 with
                              | some l2 => some (Value.map (assocSet (assocSet es ⟨k⟩
                                  (.seq (l ++ [e2]))) ⟨k⟩ (.seq l2)))
                              | none => none
                          | none => none
                      | none => none) = some t2 := h2
                  rw [if_neg hlen2] at h2a
                  have hpiL2 : pyIndex (l ++ [e2]) i = some e2 := by
                    rw [← hlen]
                    exact pyIndex_append_length l e2
                  rw [hpiL2] at h2a
                  have h2b : (match dset_go (s2 :: rest) e2 v with
                              | some e3 =>
                                  match pySet (l ++ [e2]) i e3 with
                                  | some l2 => some (Value.map (assocSet (assocSet es ⟨k⟩
                                      (.seq (l ++ [e2]))) ⟨k⟩ (.seq l2)))
                                  | none => none
                              | none => none) = some t2 := h2a
                  cases hd2 : dset_go (s2 :: rest) e2 v with
                  | none => rw [hd2] at h2b; exact Option.noConfusion h2b
                  | some e3 =>
                    rw [hd2] at h2b
                    have he3 : e3 = e2 := dset_go_idem (s2 :: rest) _ e2 e3 v hok2 hd1 hd2
                    rw [he3] at h2b
                    have hpsL2 : pySet (l ++ [e2]) i e2 = some (l ++ [e2]) := by
                      rw [← hlen]
                      exact pySet_append_length l e2 e2
                    have h2c : (match pySet (l ++ [e2]) i e2 with
                                | some l2 => some (Value.map (assocSet (assocSet es ⟨k⟩
                                    (.seq (l ++ [e2]))) ⟨k⟩ (.seq l2)))
                                | none => none) = some t2 := h2b
                    rw [hpsL2] at h2c
                    have h2d : some (Value.map (assocSet (assocSet es ⟨k⟩ (.seq (l ++ [e2]))) ⟨k⟩
                        (.seq (l ++ [e2])))) = some t2 := h2c
                    injection h2d with h2e
                    rw [← h2e, assocSet_assocSet_same]
              · rw [if_neg hlen] at h1a
                cases hpi : pyIndex l i with
                | none => rw [hpi] at h1a; exact Option.noConfusion h1a
                | some e =>
                  rw [hpi] at h1a
                  have h1b : (match dset_go (s2 :: rest) e v with
                              | some e2 =>
                                  match pySet l i e2 with
                                  | some l2 => some (Value.map (assocSet es ⟨k⟩ (.seq l2)))
                                  | none => none
                              | none => none) = some t1 := h1a
                  cases hd1 : dset_go (s2 :: rest) e v with
                  | none => rw [hd1] at h1b; exact Option.noConfusion h1b
                  | some e2 =>
                    rw [hd1] at h1b
                    have h1c : (match pySet l i e2 with
                                | some l2 => some (Value.map (assocSet es ⟨k⟩ (.seq l2)))
                                | none => none) = some t1 := h1b
                    cases hps : pySet l i e2 with
                    | none => rw [hps] at h1c; exact Option.noConfusion h1c
                    | some la =>
                      rw [hps] at h1c
                      have h1d : some (Value.map (assocSet es ⟨k⟩ (.seq la))) = some t1 := h1c
                      injection h1d with h1e
                      subst h1e
                      obtain ⟨hokL, hla⟩ := pySet_some_inv hps
                      have hlenla : la.length = l.length := by rw [hla]; simp
                      rw [dset_go_rep_eq hrep, assocGet_assocSet_self] at h2
                      have hlen2 : ¬(((la : List Value)).length : Int) = i := by
                        rw [hlenla]
                        exact hlen
                      have h2a : (match pyIndex (if (((la : List Value)).length : Int) = i
                             then la ++ [Value.map []] else la) i with
                          | some e =>
                              match dset_go (s2 :: rest) e v with
                              | some e3 =>
                                  match pySet (if (((la : List Value)).length : Int) = i
                                         then la ++ [Value.map []] else la) i e3 with
                                  | some l2 => some (Value.map (assocSet (assocSet es ⟨k⟩
                                      (.seq la)) ⟨k⟩ (.seq l2)))
                                  | none => none
                              | none => none
                          | none => none) = some t2 := h2
                      rw [if_neg hlen2] at h2a
                      have hpi2 : pyIndex la i = some e2 := by
                        have hok2' : pyOK la i := pyOK_same_length hlenla hokL
                        obtain ⟨hlt2, hpi2', _⟩ := pyIndex_some_of_ok hok2'
                        obtain ⟨hltL, _, _⟩ := pyIndex_some_of_ok hokL
                        rw [hpi2', hlenla, hla]
                        exact List.get?_set_eq_of_lt _ hltL
                      rw [hpi2] at h2a
                      have h2b : (match dset_go (s2 :: rest) e2 v with
                                  | some e3 =>
                                      match pySet la i e3 with
                                      | some l2 => some (Value.map (assocSet (assocSet es ⟨k⟩
                                          (.seq la)) ⟨k⟩ (.seq l2)))
                                      | none => none
                                  | none => none) = some t2 := h2a
                      cases hd2 : dset_go (s2 :: rest) e2 v with
                      | none => rw [hd2] at h2b; exact Option.noConfusion h2b
                      | some e3 =>
                        rw [hd2] at h2b
                        have he3 : e3 = e2 := dset_go_idem (s2 :: rest) _ e2 e3 v hok2 hd1 hd2
                        rw [he3] at h2b
                        have h2c : (match pySet la i e2 with
                                    | some l2 => some (Value.map (assocSet (assocSet es ⟨k⟩
                                        (.seq la)) ⟨k⟩ (.seq l2)))
                                    | none => none) = some t2 := h2b
                        cases hps2 : pySet la i e2 with
                        | none => rw [hps2] at h2c; exact Option.noConfusion h2c
                        | some lb =>
                          rw [hps2] at h2c
                          have hlb : lb = la := by
                            obtain ⟨hokL2, hlbe⟩ := pySet_some_inv hps2
                            rw [hlbe, hlenla, hla, List.set_set, ← hla]
                          have h2d : some (Value.map (assocSet (assocSet es ⟨k⟩ (.seq la)) ⟨k⟩
                              (.seq lb))) = some t2 := h2c
                          injection h2d with h2e
                          rw [← h2e, hlb, assocSet_assocSet_same]
            | null => rw [hg] at h1; exact Option.noConfusion h1
            | bool b => rw [hg] at h1; exact Option.noConfusion h1
            | int n => rw [hg] at h1; exact Option.noConfusion h1
            | str s => rw [hg] at h1; exact Option.noConfusion h1
            | map es2 => rw [hg] at h1; exact Option.noConfusion h1

/-! ### Claim C9: writer idempotence (corrected) -/

/-- C9 counterexample: on the empty mapping with path `k[1]`, the first
`dset` takes the missing-key branch and writes `{"k": [v]}` — a list of
length `1`.  The second identical call finds `len(data["k"]) == 1 == index`
and takes the append branch, producing `{"k": [v, v]}`: calling twice does
not leave the tree in the same state as calling once. -/
theorem C9_counterexample :
    dset (Value.map []) "k[1]" (Value.int 9)
      = some (Value.map [("k", Value.seq [Value.int 9])]) ∧
    dset (Value.map [("k", Value.seq [Value.int 9])]) "k[1]" (Value.int 9)
      = some (Value.map [("k", Value.seq [Value.int 9, Value.int 9])]) ∧
    Value.map [("k", Value.seq [Value.int 9, Value.int 9])]
      ≠ Value.map [("k", Value.seq [Value.int 9])] :=
  ⟨rfl, rfl, by intro h; injection h with h1; simp at h1⟩

/-- C9 amended: `dset` is idempotent provided the final path segment, if a
repetition `key[i]`, has `i ≠ 1`: for every tree, path and value, if both
the first call and the repeated call complete without raising, the second
call leaves the tree exactly as the first left it.  (In particular a final
repetition segment whose index equals the sequence's current length appends
on the first call and overwrites that same element in place on the second.)
The excluded case `i = 1` breaks idempotence: when the key is missing, the
first call creates a one-element list and the second call appends to it. -/
theorem C9_idempotent_amended (t t1 t2 v : Value) (p : String)
    (hok : lastSegOKB (splitSlash (stripSlash p.data)) = true)
    (h1 : dset t p v = some t1) (h2 : dset t1 p v = some t2) : t2 = t1 :=
  dset_go_idem (splitSlash (stripSlash p.data)) t t1 t2 v hok h1 h2

/-- Witness for the amended C9 at the append/overwrite pivot: in
`{"k": [0, 1]}` the path `k[2]` has index equal to the current length, so
the first call appends `9` and the repeated call overwrites that slot in
place, leaving the tree unchanged. -/
theorem C9_idempotent_amended_witness :
    Value.map [("k", Value.seq [Value.int 0, Value.int 1, Value.int 9])]
      = Value.map [("k", Value.seq [Value.int 0, Value.int 1, Value.int 9])] :=
  C9_idempotent_amended (Value.map [("k", Value.seq [Value.int 0, Value.int 1])])
    (Value.map [("k", Value.seq [Value.int 0, Value.int 1, Value.int 9])])
    (Value.map [("k", Value.seq [Value.int 0, Value.int 1, Value.int 9])])
    (Value.int 9) "k[2]" rfl rfl rfl

/-! ### Walker lemmas (claim C3) -/

theorem splitLast_append : ∀ (xs : List (List Char)) (x : List Char),
    splitLast (xs ++ [x]) = some (xs, x)
  | [], _ => rfl
  | a :: rest, x => by
    cases rest with
    | nil => rfl
    | cons b rest2 =>
      show (match splitLast ((b :: rest2) ++ [x]) with
            | some (pre, l) => some (a :: pre, l)
            | none => none) = some (a :: (b :: rest2), x)
      rw [splitLast_append (b :: rest2) x]

theorem wfEntries_mem : ∀ {es : List (String × Value)} {k : String} {val : Value},
    wfEntries es = true → (k, val) ∈ es →
    wordKeyB k.data = true ∧ wfValue val = true := by
  intro es
  induction es with
  | nil =>
    intro k val _ hm
    cases hm
  | cons e rest ih =>
    intro k val hw hm
    obtain ⟨k2, w⟩ := e
    have hw' : (wordKeyB k2.data && wfValue w && wfEntries rest) = true := hw
    rw [Bool.and_eq_true, Bool.and_eq_true] at hw'
    rw [List.mem_cons] at hm
    rcases hm with hm | hm
    · injection hm with h1 h2
      subst h1
      subst h2
      exact ⟨hw'.1.1, hw'.1.2⟩
    · exact ih hw'.2 hm

theorem wfItems_mem : ∀ {items : List Value} {val : Value},
    wfItems items = true → val ∈ items →
    isSeqB val = false ∧ wfValue val = true := by
  intro items
  induction items with
  | nil =>
    intro val _ hm
    cases hm
  | cons v rest ih =>
    intro val hw hm
    have hw' : (!(isSeqB v) && wfValue v && wfItems rest) = true := hw
    rw [Bool.and_eq_true, Bool.and_eq_true] at hw'
    rw [List.mem_cons] at hm
    rcases hm with hm | hm
    · subst hm
      exact ⟨by simpa using hw'.1.1, hw'.1.2⟩
    · exact ih hw'.2 hm

theorem assocGet_mem_distinct : ∀ {es : List (String × Value)} {k : String} {val : Value},
    keysDistinct es = true → (k, val) ∈ es → assocGet es k = some val := by
  intro es
  induction es with
  | nil =>
    intro k val _ hm
    cases hm
  | cons e rest ih =>
    intro k val hd hm
    obtain ⟨k2, w⟩ := e
    have hd' : (rest.all (fun e => e.1 != k2) && keysDistinct rest) = true := hd
    rw [Bool.and_eq_true] at hd'
    rw [List.mem_cons] at hm
    rcases hm with hm | hm
    · injection hm with h1 h2
      subst h1
      subst h2
      show (if k = k then some val else assocGet rest k) = some val
      rw [if_pos rfl]
    · by_cases hk : k2 = k
      · exfalso
        subst hk
        have := List.all_eq_true.mp hd'.1 (k2, val) hm
        simp at this
      · show (if k2 = k then some w else assocGet rest k) = some val
        rw [if_neg hk]
        exact ih hd'.2 hm

theorem process_li_single {j : Nat} {items : List Value} {e : Value}
    (hj : items.get? j = some e) :
    process_commands [PathCommand.throughListIndexed (j : Int)] [Value.seq items]
      = some [e] := by
  have hjl : j < items.length := (List.get?_eq_some.mp hj).1
  have hpi : pyIndex items (j : Int) = some e := by
    unfold pyIndex
    rw [if_pos (by omega), show ((j : Int)).toNat = j from by omega]
    exact hj
  have hg : ((items.length : Int) > (j : Int)) := by omega
  show (match go_through_list_index (j : Int) [Value.seq items] with
        | some b => some b
        | none => none) = some [e]
  rw [show go_through_list_index (j : Int) [Value.seq items] = some [e] from by
    simp [go_through_list_index, hg, hpi]]

theorem walkEntries_mem : ∀ {es : List (String × Value)} {acc : List (List Char)}
    {res : List (String × Value)} {pr : String × Value},
    walkEntries es acc = some res → pr ∈ res →
    ∃ k val l1, (k, val) ∈ es ∧ dwalkGo val (acc ++ [k.data]) = some l1 ∧ pr ∈ l1 := by
  intro es
  induction es with
  | nil =>
    intro acc res pr h hm
    have h' : (some [] : Option (List (String × Value))) = some res := h
    injection h' with h''
    rw [← h''] at hm
    cases hm
  | cons e rest ih =>
    intro acc res pr h hm
    obtain ⟨k, v⟩ := e
    have h' : (match dwalkGo v (acc ++ [k.data]) with
               | none => none
               | some l1 =>
                   match walkEntries rest acc with
                   | none => none
                   | some l2 => some (l1 ++ l2)) = some res := h
    cases hd : dwalkGo v (acc ++ [k.data]) with
    | none => rw [hd] at h'; exact Option.noConfusion h'
    | some l1 =>
      rw [hd] at h'
      cases hr : walkEntries rest acc with
      | none => rw [hr] at h'; exact Option.noConfusion h'
      | some l2 =>
        rw [hr] at h'
        injection h' with h''
        rw [← h''] at hm
        rw [List.mem_append] at hm
        rcases hm with hm | hm
        · exact ⟨k, v, l1, by simp, hd, hm⟩
        · obtain ⟨k2, val2, l3, hkv, hd2, hm2⟩ := ih hr hm
          exact ⟨k2, val2, l3, by simp [hkv], hd2, hm2⟩

theorem walkItems_mem : ∀ {items : List Value} {pre : List (List Char)}
    {lastC : List Char} {i : Nat} {res : List (String × Value)} {pr : String × Value},
    walkItems items pre lastC i = some res → pr ∈ res →
    ∃ j val l1, items.get? j = some val ∧
      dwalkGo val (pre ++ [lastC ++ '[' :: natDigits (i + j) ++ [']']]) = some l1 ∧
      pr ∈ l1 := by
  intro items
  induction items with
  | nil =>
    intro pre lastC i res pr h hm
    have h' : (some [] : Option (List (String × Value))) = some res := h
    injection h' with h''
    rw [← h''] at hm
    cases hm
  | cons v rest ih =>
    intro pre lastC i res pr h hm
    have h' : (match dwalkGo v (pre ++ [lastC ++ '[' :: natDigits i ++ [']']]) with
               | none => none
               | some l1 =>
                   match walkItems rest pre lastC (i + 1) with
                   | none => none
                   | some l2 => some (l1 ++ l2)) = some res := h
    cases hd : dwalkGo v (pre ++ [lastC ++ '[' :: natDigits i ++ [']']]) with
    | none => rw [hd] at h'; exact Option.noConfusion h'
    | some l1 =>
      rw [hd] at h'
      cases hr : walkItems rest pre lastC (i + 1) with
      | none => rw [hr] at h'; exact Option.noConfusion h'
      | some l2 =>
        rw [hr] at h'
        injection h' with h''
        rw [← h''] at hm
        rw [List.mem_append] at hm
        rcases hm with hm | hm
        · refine ⟨0, v, l1, rfl, ?_, hm⟩
          rw [show i + 0 = i from rfl]
          exact hd
        · obtain ⟨j2, val2, l3, hj2, hd2, hm2⟩ := ih hr hm
          refine ⟨j2 + 1, val2, l3, hj2, ?_, hm2⟩
          rw [show i + (j2 + 1) = (i + 1) + j2 from by omega]
          exact hd2

theorem walk_main_leaf {v t : Value} {comps : List Comp} {res : List (String × Value)}
    (hwc : ∀ c ∈ comps, Comp.wfB c = true)
    (hne : comps ≠ [])
    (hproc : process_commands (comps.flatMap Comp.cmds) [t] = some [v])
    (hres : [((⟨joinSlash (comps.map Comp.render)⟩ : String), v)] = res) :
    ∀ pr ∈ res, ∃ full : List Comp,
      (∀ c ∈ full, Comp.wfB c = true) ∧ full ≠ [] ∧
      pr.1 = (⟨joinSlash (full.map Comp.render)⟩ : String) ∧
      process_commands (full.flatMap Comp.cmds) [t] = some [pr.2] := by
  intro pr hpr
  rw [← hres, List.mem_singleton] at hpr
  subst hpr
  exact ⟨comps, hwc, hne, rfl, hproc⟩

theorem walk_main : ∀ (v t : Value) (comps : List Comp) (res : List (String × Value)),
    wfValue v = true →
    (∀ c ∈ comps, Comp.wfB c = true) →
    (comps = [] → isMapB v = true) →
    (isSeqB v = true → ∃ pre kk, comps = pre ++ [Comp.plain kk]) →
    process_commands (comps.flatMap Comp.cmds) [t] = some [v] →
    dwalkGo v (comps.map Comp.render) = some res →
    ∀ pr ∈ res, ∃ full : List Comp,
      (∀ c ∈ full, Comp.wfB c = true) ∧ full ≠ [] ∧
      pr.1 = (⟨joinSlash (full.map Comp.render)⟩ : String) ∧
      process_commands (full.flatMap Comp.cmds) [t] = some [pr.2]
  | Value.null, t, comps, res, hwv, hwc, hroot, hseq, hproc, hwalk => by
      have hne : comps ≠ [] := by
        intro hc
        have := hroot hc
        simp [isMapB] at this
      have h' : (some [((⟨joinSlash (comps.map Comp.render)⟩ : String), Value.null)]
          : Option (List (String × Value))) = some res := hwalk
      injection h' with h''
      exact walk_main_leaf hwc hne hproc h''
  | Value.bool b, t, comps, res, hwv, hwc, hroot, hseq, hproc, hwalk => by
      have hne : comps ≠ [] := by
        intro hc
        have := hroot hc
        simp [isMapB] at this
      have h' : (some [((⟨joinSlash (comps.map Comp.render)⟩ : String), Value.bool b)]
          : Option (List (String × Value))) = some res := hwalk
      injection h' with h''
      exact walk_main_leaf hwc hne hproc h''
  | Value.int n, t, comps, res, hwv, hwc, hroot, hseq, hproc, hwalk => by
      have hne : comps ≠ [] := by
        intro hc
        have := hroot hc
        simp [isMapB] at this
      have h' : (some [((⟨joinSlash (comps.map Comp.render)⟩ : String), Value.int n)]
          : Option (List (String × Value))) = some res := hwalk
      injection h' with h''
      exact walk_main_leaf hwc hne hproc h''
  | Value.str s, t, comps, res, hwv, hwc, hroot, hseq, hproc, hwalk => by
      have hne : comps ≠ [] := by
        intro hc
        have := hroot hc
        simp [isMapB] at this
      have h' : (some [((⟨joinSlash (comps.map Comp.render)⟩ : String), Value.str s)]
          : Option (List (String × Value))) = some res := hwalk
      injection h' with h''
      exact walk_main_leaf hwc hne hproc h''
  | Value.map es, t, comps, res, hwv, hwc, hroot, hseq, hproc, hwalk => by
      intro pr hpr
      have hwE : keysDistinct es = true ∧ wfEntries es = true := by
        have h : (keysDistinct es && wfEntries es) = true := hwv
        rw [Bool.and_eq_true] at h
        exact h
      have hwalk' : walkEntries es (comps.map Comp.render) = some res := hwalk
      obtain ⟨k, val, l1, hkv, hw1, hpr1⟩ := walkEntries_mem hwalk' hpr
      obtain ⟨hwk, hwval⟩ := wfEntries_mem hwE.2 hkv
      have hga : assocGet es k = some val := assocGet_mem_distinct hwE.1 hkv
      have hs1 : sizeOf (k, val) < sizeOf es := List.sizeOf_lt_of_mem hkv
      have hs2 : sizeOf (k, val) = 1 + sizeOf k + sizeOf val := rfl
      have hs3 : sizeOf (Value.map es) = 1 + sizeOf es := by simp
      have hdec : sizeOf val < sizeOf (Value.map es) := by omega
      have hacc : (comps.map Comp.render) ++ [k.data]
          = (comps ++ [Comp.plain k.data]).map Comp.render := by
        simp [Comp.render]
      rw [hacc] at hw1
      have hwc' : ∀ c ∈ comps ++ [Comp.plain k.data], Comp.wfB c = true := by
        intro c hc
        rw [List.mem_append, List.mem_singleton] at hc
        rcases hc with hc | hc
        · exact hwc c hc
        · subst hc
          exact hwk
      have hproc' : process_commands ((comps ++ [Comp.plain k.data]).flatMap Comp.cmds) [t]
          = some [val] := by
        have hfm : (comps ++ [Comp.plain k.data]).flatMap Comp.cmds
            = comps.flatMap Comp.cmds ++ Comp.cmds (Comp.plain k.data) := by
          simp
        rw [hfm, process_commands_append, hproc]
        exact comp_eval_plain (show assocGet es ⟨k.data⟩ = some val from hga)
      exact walk_main val t (comps ++ [Comp.plain k.data]) l1 hwval hwc'
        (fun hemp => absurd hemp (by simp))
        (fun _ => ⟨comps, k.data, rfl⟩)
        hproc' hw1 pr hpr1
  | Value.seq items, t, comps, res, hwv, hwc, hroot, hseq, hproc, hwalk => by
      intro pr hpr
      obtain ⟨pre, kk, hcomps⟩ := hseq rfl
      cases items with
      | nil =>
        have h' : (some [] : Option (List (String × Value))) = some res := hwalk
        injection h' with h''
        rw [← h''] at hpr
        cases hpr
      | cons v0 rest0 =>
        subst hcomps
        have hsp : splitLast ((pre ++ [Comp.plain kk]).map Comp.render)
            = some (pre.map Comp.render, kk) := by
          rw [List.map_append]
          exact splitLast_append (pre.map Comp.render) kk
        have hwalk' : (match splitLast ((pre ++ [Comp.plain kk]).map Comp.render) with
                       | none => none
                       | some (p2, lastC) => walkItems (v0 :: rest0) p2 lastC 0)
            = some res := hwalk
        rw [hsp] at hwalk'
        have hwalk'' : walkItems (v0 :: rest0) (pre.map Comp.render) kk 0 = some res := hwalk'
        obtain ⟨j, val, l1, hj, hw1, hpr1⟩ := walkItems_mem hwalk'' hpr
        have hmem : val ∈ v0 :: rest0 := List.get?_mem hj
        have hwI : isSeqB val = false ∧ wfValue val = true :=
          wfItems_mem (show wfItems (v0 :: rest0) = true from hwv) hmem
        have hs1 : sizeOf val < sizeOf (v0 :: rest0 : List Value) :=
          List.sizeOf_lt_of_mem hmem
        have hs3 : sizeOf (Value.seq (v0 :: rest0)) = 1 + sizeOf (v0 :: rest0 : List Value) := by simp
        have hdec : sizeOf val < sizeOf (Value.seq (v0 :: rest0)) := by omega
        have hrender : kk ++ '[' :: natDigits (0 + j) ++ [']']
            = Comp.render (Comp.idx kk (j : Int)) := by
          rw [Comp.render, intToChars_nonneg (by omega), Int.toNat_natCast, Nat.zero_add]
        rw [hrender] at hw1
        have hacc : pre.map Comp.render ++ [Comp.render (Comp.idx kk (j : Int))]
            = (pre ++ [Comp.idx kk (j : Int)]).map Comp.render := by
          simp
        rw [hacc] at hw1
        have hwkk : Comp.wfB (Comp.plain kk) = true := hwc (Comp.plain kk) (by simp)
        have hwc' : ∀ c ∈ pre ++ [Comp.idx kk (j : Int)], Comp.wfB c = true := by
          intro c hc
          rw [List.mem_append, List.mem_singleton] at hc
          rcases hc with hc | hc
          · exact hwc c (by simp [hc])
          · subst hc
            exact hwkk
        have hproc' : process_commands ((pre ++ [Comp.idx kk (j : Int)]).flatMap Comp.cmds) [t]
            = some [val] := by
          have hfm : (pre ++ [Comp.idx kk (j : Int)]).flatMap Comp.cmds
              = (pre ++ [Comp.plain kk]).flatMap Comp.cmds
                ++ [PathCommand.throughListIndexed (j : Int)] := by
            simp [Comp.cmds]
          rw [hfm, process_commands_append, hproc]
          exact process_li_single hj
        exact walk_main val t (pre ++ [Comp.idx kk (j : Int)]) l1 hwI.2 hwc'
          (fun hemp => absurd hemp (by simp))
          (fun hs => absurd hs (by rw [hwI.1]; simp))
          hproc' hw1 pr hpr1
termination_by v _ _ _ => sizeOf v
decreasing_by all_goals (simp_wf; subst_vars; omega)

/-! ### Claim C3: walker/reader agreement (corrected) -/

/-- C3 counterexample: in `{"a": [[1]]}` the walker annotates nested
sequences by stacking bracket suffixes on the same component, yielding the
pair `("a[0][0]", 1)`.  But `read_path` splits `a[0][0]` into the tokens
`a` and `[0][0]`, and `re.match` on `[0][0]` captures only the leading
`[0]`: the path compiles to `DictKey a / ListIndex 0` — a single list step —
so `dget` returns the inner list `[1]`, not the leaf `1` the walker paired
with that path. -/
theorem C3_counterexample :
    dwalk (Value.map [("a", Value.seq [Value.seq [Value.int 1]])])
      = some [("a[0][0]", Value.int 1)] ∧
    dget (Value.map [("a", Value.seq [Value.seq [Value.int 1]])]) "a[0][0]" Value.null
      = some (Value.seq [Value.int 1]) ∧
    Value.seq [Value.int 1] ≠ Value.int 1 :=
  ⟨rfl, rfl, fun h => Value.noConfusion h⟩

/-- C3 amended: the walker/reader agreement holds on well-formed trees whose
root is a mapping: every mapping has pairwise-distinct non-empty
word-character keys and no sequence element is itself a sequence (so each
bracket suffix attaches to a mapping key and never stacks).  Under these
conditions, for every `(path, leaf)` pair yielded by `dwalk t`,
`dget t path default = leaf`; the walker encodes a sequence element by
appending one bracketed index to the last accumulated component
(`key` becomes `key[i]`) rather than adding a new segment, and `dget`
resolves every such path back to the same leaf. -/
theorem C3_walk_read_amended (es : List (String × Value)) (res : List (String × Value))
    (D : Value)
    (hwf : wfValue (Value.map es) = true)
    (hwalk : dwalk (Value.map es) = some res) :
    ∀ pr ∈ res, dget (Value.map es) pr.1 D = some pr.2 := by
  intro pr hpr
  have h0 : dwalkGo (Value.map es) (([] : List Comp).map Comp.render) = some res := hwalk
  obtain ⟨full, hfw, hfne, hp1, hproc⟩ :=
    walk_main (Value.map es) (Value.map es) [] res hwf
      (fun c hc => absurd hc (by simp))
      (fun _ => rfl)
      (fun hs => Bool.noConfusion hs)
      rfl h0 pr hpr
  rw [hp1]
  exact dget_eval (read_path_render hfne hfw) hproc
    (flat_not_mem_comp_cmds full).1 (flat_not_mem_comp_cmds full).2

/-- Witness for the amended C3: walking `{"a": [5]}` yields the single pair
`("a[0]", 5)`, and reading `a[0]` back returns the leaf `5`. -/
theorem C3_walk_read_amended_witness :
    dget (Value.map [("a", Value.seq [Value.int 5])]) "a[0]" Value.null
      = some (Value.int 5) :=
  C3_walk_read_amended [("a", Value.seq [Value.int 5])]
    [("a[0]", Value.int 5)] Value.null (by decide) rfl
    ("a[0]", Value.int 5) (by simp)
